import Mathlib

/-!
Verification development for the audio segmentation and subtitle-generation
pipeline of the lingoplayer-offline repository.

The embedding follows the TypeScript source in `src/services/audioUtils.ts`,
`src/services/offlineASR.ts`, the local-server adapter
(`generateSubtitlesLocalServer`), the cloud adapter (`generateSubtitlesOnline`)
and the orchestrator (`generateSubtitles` / `cancelSubtitleGeneration`).

Modelling conventions:
* JavaScript numbers are modelled by `JNum`: a rational (`fin`), the two
  infinities, or `nan`.  Exact rationals stand in for IEEE doubles; none of
  the verified claims depends on rounding.
* String utilities (`trim`, `toLowerCase`, `split`, `endsWith`, `replace`)
  are implemented structurally over the character list so that concrete
  runs reduce inside the kernel; the whitespace set is the common ASCII one.
* Timestamps flowing through the chunk pipelines are rationals.  Raw
  backend responses decoded from JSON carry finite numbers in numeric
  fields; string timestamp fields go through `parseTimestamp`, whose
  (pathological) non-finite results are collapsed to `0` by `JNum.toQ`.
* Asynchronous adapter loops are modelled as recursive functions producing
  the final value together with the ordered list of observable events
  (progress publications, and the point at which the job was cancelled).
* Cooperative cancellation (the `activeJobId` counter) is modelled by an
  optional iteration number `cancelDuring`: the counter is bumped while the
  backend call of that loop iteration is in flight, so the `checkCancelled`
  closure answers `false` up to and including that iteration's top-of-loop
  check and `true` afterwards.
-/

set_option maxRecDepth 4000

/- Core rational arithmetic is `@[irreducible]` by default, which blocks
kernel evaluation of concrete runs via `decide`; restore semireducibility
for this file so that concrete counterexamples and witnesses evaluate. -/
attribute [local semireducible] Rat.add Rat.mul Rat.sub Rat.inv Rat.ofScientific

deriving instance DecidableEq for Except

/-- A JavaScript number: finite (modelled exactly as a rational), `Infinity`,
`-Infinity`, or `NaN`. -/
inductive JNum where
  | fin (q : ℚ)
  | inf
  | negInf
  | nan
deriving DecidableEq, Repr

namespace JNum

def isNaN : JNum → Bool
  | nan => true
  | _ => false

def neg : JNum → JNum
  | fin q => fin (-q)
  | inf => negInf
  | negInf => inf
  | nan => nan

def add : JNum → JNum → JNum
  | nan, _ => nan
  | _, nan => nan
  | fin a, fin b => fin (a + b)
  | inf, negInf => nan
  | negInf, inf => nan
  | inf, _ => inf
  | _, inf => inf
  | negInf, _ => negInf
  | _, negInf => negInf

def sub (a b : JNum) : JNum := add a (neg b)

def mul : JNum → JNum → JNum
  | nan, _ => nan
  | _, nan => nan
  | fin a, fin b => fin (a * b)
  | fin a, inf => if 0 < a then inf else if a < 0 then negInf else nan
  | inf, fin a => if 0 < a then inf else if a < 0 then negInf else nan
  | fin a, negInf => if 0 < a then negInf else if a < 0 then inf else nan
  | negInf, fin a => if 0 < a then negInf else if a < 0 then inf else nan
  | inf, inf => inf
  | inf, negInf => negInf
  | negInf, inf => negInf
  | negInf, negInf => inf

/-- Division by a natural number (used for averaging over a batch). -/
def divN : JNum → ℕ → JNum
  | fin q, n =>
      if n = 0 then (if 0 < q then inf else if q < 0 then negInf else nan)
      else fin (q / n)
  | inf, _ => inf
  | negInf, _ => negInf
  | nan, _ => nan

/-- The JavaScript `<` comparison (`NaN` compares false with everything). -/
def ltb : JNum → JNum → Bool
  | nan, _ => false
  | _, nan => false
  | fin a, fin b => a < b
  | fin _, inf => true
  | fin _, negInf => false
  | inf, _ => false
  | negInf, negInf => false
  | negInf, _ => true

/-- The JavaScript `<=` comparison (`NaN` compares false with everything). -/
def leb : JNum → JNum → Bool
  | nan, _ => false
  | _, nan => false
  | fin a, fin b => a ≤ b
  | fin _, inf => true
  | fin _, negInf => false
  | inf, inf => true
  | inf, _ => false
  | negInf, _ => true

/-- `Math.max`: `NaN` if either argument is `NaN`. -/
def maxJ (a b : JNum) : JNum :=
  if a.isNaN || b.isNaN then nan else if ltb a b then b else a

def absJ : JNum → JNum
  | fin q => fin |q|
  | inf => inf
  | negInf => inf
  | nan => nan

/-- Collapse to a rational.  Raw JSON numeric fields are always finite; a
non-finite value can only arise from a string timestamp such as
`"Infinity"`, which the pipeline models map to `0`. -/
def toQ : JNum → ℚ
  | fin q => q
  | _ => 0

end JNum

/-- A dynamically-typed JavaScript value, as far as `parseTimestamp` inspects
it: a (finite) number, a string, or anything else. -/
inductive JSVal where
  | num (q : ℚ)
  | str (s : String)
  | other
deriving DecidableEq, Repr

/-- ASCII whitespace, as skipped by `parseFloat` / removed by `trim`. -/
def isWsChar (c : Char) : Bool :=
  c = ' ' || c = '\t' || c = '\n' || c = '\r'

/-- JavaScript `String.prototype.trim` (structural implementation). -/
def jsTrim (s : String) : String :=
  ⟨((s.data.dropWhile isWsChar).reverse.dropWhile isWsChar).reverse⟩

def lowerChar (c : Char) : Char :=
  if 'A' ≤ c && c ≤ 'Z' then Char.ofNat (c.toNat + 32) else c

/-- JavaScript `String.prototype.toLowerCase` (ASCII range). -/
def jsToLower (s : String) : String :=
  ⟨s.data.map lowerChar⟩

/-- JavaScript `String.prototype.endsWith`. -/
def jsEndsWith (hay sfx : String) : Bool :=
  sfx.data == hay.data.drop (hay.data.length - sfx.data.length)

/-- JavaScript `s.split(sep)` for a single-character separator. -/
def splitOnChar : List Char → Char → List (List Char)
  | [], _ => [[]]
  | c :: r, sep =>
      if c = sep then [] :: splitOnChar r sep
      else
        match splitOnChar r sep with
        | [] => [[c]]
        | h :: t => (c :: h) :: t

def digitsToNat (cs : List Char) : ℕ :=
  cs.foldl (fun acc c => acc * 10 + (c.toNat - '0'.toNat)) 0

/-- Value of a fractional digit string, e.g. `"25"` ↦ `0.25`. -/
def fracVal (cs : List Char) : ℚ :=
  (digitsToNat cs : ℚ) / ((10 : ℚ) ^ cs.length)

/-- Exponent part after `e`/`E`: optional sign then digits; an empty digit
string means the exponent suffix is not part of the parsed prefix. -/
def parseExpPart (cs : List Char) : ℤ :=
  match cs with
  | '+' :: r => (digitsToNat (r.takeWhile Char.isDigit) : ℤ)
  | '-' :: r => -(digitsToNat (r.takeWhile Char.isDigit) : ℤ)
  | r => (digitsToNat (r.takeWhile Char.isDigit) : ℤ)

def parseUnsignedFloat (cs : List Char) (sign : ℚ) : JNum :=
  if cs.take 8 == "Infinity".data then
    (if 0 < sign then JNum.inf else JNum.negInf)
  else
    let intPart := cs.takeWhile Char.isDigit
    let rest1 := cs.dropWhile Char.isDigit
    let fracPart := match rest1 with
      | '.' :: r => r.takeWhile Char.isDigit
      | _ => []
    let rest2 := match rest1 with
      | '.' :: r => r.dropWhile Char.isDigit
      | _ => rest1
    if intPart.isEmpty && fracPart.isEmpty then JNum.nan
    else
      let e : ℤ := match rest2 with
        | c :: r => if c = 'e' || c = 'E' then parseExpPart r else 0
        | [] => 0
      JNum.fin (sign * ((digitsToNat intPart : ℚ) + fracVal fracPart) * (10 : ℚ) ^ e)

/-- JavaScript `parseFloat`: skip leading whitespace, then parse the longest
valid decimal-literal (or `Infinity`) prefix; `NaN` when there is none. -/
def parseFloatJ (s : String) : JNum :=
  match s.data.dropWhile isWsChar with
  | '+' :: rest => parseUnsignedFloat rest 1
  | '-' :: rest => parseUnsignedFloat rest (-1)
  | rest => parseUnsignedFloat rest 1

/-- `v.replace(',', '.')` — JavaScript `String.replace` with a string pattern
replaces only the first occurrence. -/
def replaceFirstChar : List Char → Char → Char → List Char
  | [], _, _ => []
  | c :: r, a, b => if c = a then b :: r else c :: replaceFirstChar r a b

def replaceFirst (s : String) (a b : Char) : String :=
  ⟨replaceFirstChar s.data a b⟩

/-- `parseTimestamp` from `src/services/audioUtils.ts` (lines 133–155): a
tolerant coercion of an arbitrary value to seconds.  Numbers are returned
as-is; strings are trimmed, the first comma is treated as a decimal point,
`HH:MM:SS(.ms)` / `MM:SS(.ms)` forms are expanded, `NaN` outcomes are
replaced by `0`; any other value yields `0`. -/
def parseTimestamp : JSVal → JNum
  | JSVal.num q => JNum.fin q
  | JSVal.str s =>
      let v := jsTrim s
      if v = "" then JNum.fin 0
      else
        let normalized := replaceFirst v ',' '.'
        if normalized.data.contains ':' then
          let ps := (splitOnChar normalized.data ':').map (fun cs => String.mk cs)
          let seconds : JNum :=
            if ps.length = 3 then
              JNum.add (JNum.add (JNum.mul (parseFloatJ (ps.getD 0 "")) (JNum.fin 3600))
                  (JNum.mul (parseFloatJ (ps.getD 1 "")) (JNum.fin 60)))
                (parseFloatJ (ps.getD 2 ""))
            else if ps.length = 2 then
              JNum.add (JNum.mul (parseFloatJ (ps.getD 0 "")) (JNum.fin 60))
                (parseFloatJ (ps.getD 1 ""))
            else
              parseFloatJ ((ps.getLast?).getD "")
          if seconds.isNaN then JNum.fin 0 else seconds
        else
          let num := parseFloatJ normalized
          if num.isNaN then JNum.fin 0 else num
  | JSVal.other => JNum.fin 0

example : parseTimestamp (JSVal.str "250") = JNum.fin 250 := by decide
example : parseTimestamp (JSVal.str "1,5") = JNum.fin (3/2) := by decide
example : parseTimestamp (JSVal.str "01:02:03,5") = JNum.fin (3723 + 1/2) := by
  decide
example : parseTimestamp (JSVal.str "abc") = JNum.fin 0 := by decide
example : parseTimestamp (JSVal.str "") = JNum.fin 0 := by decide
example : parseTimestamp (JSVal.str "Infinity") = JNum.inf := by decide
example : parseTimestamp (JSVal.str "1:x") = JNum.fin 0 := by decide

/-- A raw `{start, end}` pair as handed to `detectTimeScale` (fields may be
numbers or strings; only these two fields are inspected). -/
structure RawVal where
  start : JSVal
  «end» : JSVal
deriving DecidableEq, Repr

/-- Intermediate record of `detectTimeScale`'s `parsed` array. -/
structure ParsedPair where
  start : JNum
  «end» : JNum
  dur : JNum
deriving DecidableEq, Repr

/-- The tie-break comparator of `detectTimeScale` (several candidates valid):
JavaScript sorts ascending by `|log(max(1e-4, avgDur*scale)) - log 3|`.
For finite positive keys `x`, `|log x - log 3| ≤ |log y - log 3|` holds iff
`max (x/3) (3/x) ≤ max (y/3) (3/y)` (lemma `logDist_le_iff` below), which is
how the comparison is computed here; non-finite keys cannot occur when this
comparator is reached (validity forces a finite average duration) and
default to `true`. -/
def tieLe (avgDur : JNum) (a b : ℚ) : Bool :=
  match JNum.maxJ (JNum.fin 0.0001) (JNum.mul avgDur (JNum.fin a)),
        JNum.maxJ (JNum.fin 0.0001) (JNum.mul avgDur (JNum.fin b)) with
  | JNum.fin x, JNum.fin y => max (x / 3) (3 / x) ≤ max (y / 3) (3 / y)
  | _, _ => true

/-- The fallback comparator of `detectTimeScale` (no candidate valid):
ascending by `|maxEnd*scale - chunkDuration|`. -/
def fbLe (maxEnd : JNum) (chunkDuration : ℚ) (a b : ℚ) : Bool :=
  JNum.leb (JNum.absJ (JNum.sub (JNum.mul maxEnd (JNum.fin a)) (JNum.fin chunkDuration)))
    (JNum.absJ (JNum.sub (JNum.mul maxEnd (JNum.fin b)) (JNum.fin chunkDuration)))

/-- The validity window of `detectTimeScale`: a candidate scale passes when
the scaled average duration lies in `[0.1, 60]` seconds and the scaled
maximum end stays within `1.5 ×` the chunk duration. -/
def detectValidCandidates (avgDur maxEnd : JNum) (chunkDuration : ℚ) : List ℚ :=
  ([1, 0.01, 0.001] : List ℚ).filter (fun scale =>
    let scaledAvg := JNum.mul avgDur (JNum.fin scale)
    let scaledMax := JNum.mul maxEnd (JNum.fin scale)
    (JNum.leb (JNum.fin 0.1) scaledAvg && JNum.leb scaledAvg (JNum.fin 60.0)) &&
      JNum.leb scaledMax (JNum.fin (chunkDuration * 1.5)))

/-- `detectTimeScale` from `src/services/audioUtils.ts` (lines 157–193):
infer the multiplicative factor (1, 0.01 or 0.001) converting raw timestamp
units into seconds.  Pairs with `end ≤ start` are discarded; a candidate is
valid when the scaled average duration lies in `[0.1, 60]` seconds and the
scaled maximum end stays within `1.5 ×` the chunk duration; ties are broken
towards a 3-second average in log-space; if nothing is valid the candidate
whose scaled maximum end is closest to the chunk duration wins; with no
usable pairs the scale defaults to `1.0`. -/
def detectTimeScale (segments : List RawVal) (chunkDuration : ℚ) : ℚ :=
  let parsed := (segments.map (fun s =>
      let st := parseTimestamp s.start
      let en := parseTimestamp s.«end»
      ParsedPair.mk st en (JNum.sub en st))).filter
    (fun s => JNum.ltb s.start s.«end» && JNum.ltb (JNum.fin 0) s.dur)
  if parsed.length = 0 then 1
  else
    let avgDur := (parsed.foldl (fun sum s => JNum.add sum s.dur) (JNum.fin 0)).divN parsed.length
    let maxEnd := (parsed.map (fun s => s.«end»)).foldl JNum.maxJ JNum.negInf
    let candidates : List ℚ := [1, 0.01, 0.001]
    let validCandidates := detectValidCandidates avgDur maxEnd chunkDuration
    if validCandidates.length = 1 then validCandidates.getD 0 1
    else if 1 < validCandidates.length then
      (validCandidates.insertionSort (fun a b => tieLe avgDur a b = true)).getD 0 1
    else
      (candidates.insertionSort (fun a b => fbLe maxEnd chunkDuration a b = true)).getD 0 1

example : detectTimeScale [⟨JSVal.str "250", JSVal.str "500"⟩] (3.5 : ℚ) = 0.01 := by decide
example : detectTimeScale [⟨JSVal.num 0, JSVal.num 3⟩] 10 = 1 := by decide
example : detectTimeScale [] 10 = 1 := by decide
example : detectTimeScale [⟨JSVal.num 0, JSVal.num 1⟩] 1 = 1 := by decide

/-- A chunk window produced by a chunker: `{index, start, end}`, in samples,
`end` exclusive. -/
structure ChunkDef where
  index : ℕ
  start : ℕ
  «end» : ℕ
deriving DecidableEq, Repr

/-- The `(cursor / sampleRate) >= limitSec` check guarding both chunker
loops. -/
def limitHit (limitSec : Option ℚ) (sampleRate cursor : ℕ) : Bool :=
  match limitSec with
  | none => false
  | some l => l ≤ (cursor : ℚ) / (sampleRate : ℚ)

def CHUNK_SCHEDULE_ENDS : List ℕ := [20, 60, 180]

def STANDARD_CHUNK_DURATION : ℕ := 180

/-- Loop body of `getFixedChunks` (`src/services/audioUtils.ts`, lines
315–340).  The generator is rendered as a fuel-indexed recursion; the fuel
provided by `getFixedChunks` is always sufficient because the cursor strictly
advances every iteration.  `Math.floor(endSeconds * sampleRate)` is an exact
product of naturals. -/
def getFixedChunksGo (totalSamples sampleRate : ℕ) (limitSec : Option ℚ) :
    ℕ → ℕ → ℕ → ℕ → List ChunkDef
  | 0, _, _, _ => []
  | fuel + 1, currentSampleOffset, scheduleIndex, globalIndex =>
    if currentSampleOffset < totalSamples then
      if limitHit limitSec sampleRate currentSampleOffset then []
      else
        let chunkEnd0 :=
          if scheduleIndex < CHUNK_SCHEDULE_ENDS.length then
            let ce := (CHUNK_SCHEDULE_ENDS.getD scheduleIndex 0) * sampleRate
            if ce ≤ currentSampleOffset then
              currentSampleOffset + STANDARD_CHUNK_DURATION * sampleRate
            else ce
          else currentSampleOffset + STANDARD_CHUNK_DURATION * sampleRate
        let chunkEnd := min chunkEnd0 totalSamples
        if chunkEnd ≤ currentSampleOffset then []
        else
          ChunkDef.mk globalIndex currentSampleOffset chunkEnd ::
            getFixedChunksGo totalSamples sampleRate limitSec fuel chunkEnd
              (scheduleIndex + 1) (globalIndex + 1)
    else []

/-- `getFixedChunks`: escalating schedule of absolute end-times 20 s / 60 s /
180 s, then a constant 180 s stride, each end clamped to the signal length. -/
def getFixedChunks (totalSamples sampleRate : ℕ) (limitSec : Option ℚ) : List ChunkDef :=
  getFixedChunksGo totalSamples sampleRate limitSec (totalSamples + 1) 0 0 0

example : getFixedChunks 0 16000 none = [] := by decide
example : getFixedChunks 100 16000 none = [ChunkDef.mk 0 0 100] := by decide
example : getFixedChunks (200 * 16000) 16000 none =
    [ChunkDef.mk 0 0 320000, ChunkDef.mk 1 320000 960000,
      ChunkDef.mk 2 960000 2880000, ChunkDef.mk 3 2880000 3200000] := by decide

/-- Sum of squares of a window (numerator of the mean-square energy). -/
def sumSq (w : List ℚ) : ℚ := w.foldl (fun s x => s + x * x) 0

/-- `calculateRMS(window) < threshold` where
`calculateRMS = sqrt(sumSq / length)`: computed by the equivalent
square comparison; `rms_lt_iff` below proves the equivalence with the
`Real.sqrt` form. -/
def rmsLt (w : List ℚ) (threshold : ℚ) : Bool :=
  0 < threshold && sumSq w / (w.length : ℚ) < threshold ^ 2

/-- Loop body of `scanForSplitPoints` (lines 223–250): march over the signal
in windows of `windowSize` samples accumulating silence runs; when a run of
at least `minSilenceSamples` ends (or the signal ends), push a split point at
the midpoint of the run.  Fuel-indexed: the supplied fuel is sufficient
whenever `windowSize ≥ 1` (with `windowSize = 0` the JavaScript loop never
terminates). -/
def scanForSplitPointsGo (audio : List ℚ) (windowSize : ℕ)
    (minSilenceSamples threshold : ℚ) :
    ℕ → ℕ → ℕ → ℤ → List ℕ
  | 0, _, _, _ => []
  | fuel + 1, i, currentSilence, silenceStart =>
    if i < audio.length then
      let e := min (i + windowSize) audio.length
      let w := (audio.drop i).take (e - i)
      if rmsLt w threshold then
        let ss : ℤ := if currentSilence = 0 then (i : ℤ) else silenceStart
        scanForSplitPointsGo audio windowSize minSilenceSamples threshold fuel
          (i + windowSize) (currentSilence + (e - i)) ss
      else
        (if minSilenceSamples ≤ (currentSilence : ℚ) then
            [(silenceStart + (currentSilence / 2 : ℕ)).toNat]
          else []) ++
          scanForSplitPointsGo audio windowSize minSilenceSamples threshold fuel
            (i + windowSize) 0 (-1)
    else
      if minSilenceSamples ≤ (currentSilence : ℚ) then
        [(silenceStart + (currentSilence / 2 : ℕ)).toNat]
      else []

/-- `scanForSplitPoints`: window size is `Math.floor(sampleRate * 0.05)`
(= `sampleRate / 20` over naturals), the minimum silence run is
`minSilenceSec * sampleRate` samples. -/
def scanForSplitPoints (audio : List ℚ) (sampleRate : ℕ)
    (minSilenceSec threshold : ℚ) : List ℕ :=
  scanForSplitPointsGo audio (sampleRate / 20) (minSilenceSec * (sampleRate : ℚ))
    threshold (audio.length + 1) 0 0 (-1)

/-- The split-point loop of `getVADChunks` (lines 278–288): for each split
point, yield the region since the previous split when it is longer than
0.2 s, and always advance the cursor to the split point.  Returns the
yielded chunks, the final `lastSplitLocal`, and the next `globalIndex`. -/
def splitEmit (sampleRate bufferGlobalStart : ℕ) :
    List ℕ → ℕ → ℕ → List ChunkDef × ℕ × ℕ
  | [], lastSplit, gIdx => ([], lastSplit, gIdx)
  | p :: rest, lastSplit, gIdx =>
      let dur : ℚ := ((p : ℚ) - (lastSplit : ℚ)) / (sampleRate : ℚ)
      if 0.2 < dur then
        let out := splitEmit sampleRate bufferGlobalStart rest p (gIdx + 1)
        (ChunkDef.mk gIdx (bufferGlobalStart + lastSplit) (bufferGlobalStart + p) :: out.1,
          out.2)
      else splitEmit sampleRate bufferGlobalStart rest p gIdx

/-- Loop body of `getVADChunks` (lines 252–313).  The cascaded RC vocal
filter of the source involves `π`-valued floating-point coefficients; it is
abstracted as the `vocalFilter` parameter (only the analysis copy of the
buffer passes through it, and it is bypassed when `filteringEnabled` is
false, exactly as in the source).  Returns the yielded chunks together with
the length of the retained buffer handed to each subsequent iteration: the
second component is the trace of leftover-buffer sizes carried across
analysis-batch boundaries. -/
def getVADChunksGo (vocalFilter : List ℚ → List ℚ) (audioData : List ℚ)
    (sampleRate batchSamples : ℕ) (minSilenceSec silenceThreshold : ℚ)
    (filteringEnabled : Bool) (limitSec : Option ℚ) :
    ℕ → ℕ → ℕ → List ℚ → ℕ → List ChunkDef × List ℕ
  | 0, _, _, _, _ => ([], [])
  | fuel + 1, filePointer, gIdx, buffer0, bufferGlobalStart =>
    if filePointer < audioData.length && !(limitHit limitSec sampleRate filePointer) then
      let batchEnd := min (filePointer + batchSamples) audioData.length
      let buffer := buffer0 ++ (audioData.drop filePointer).take (batchEnd - filePointer)
      let analysisBuffer := if filteringEnabled then vocalFilter buffer else buffer
      let splitIndices := scanForSplitPoints analysisBuffer sampleRate minSilenceSec silenceThreshold
      let emitted := splitEmit sampleRate bufferGlobalStart splitIndices 0 gIdx
      let yielded := emitted.1
      let lastSplitLocal := emitted.2.1
      let gIdx1 := emitted.2.2
      let isEOF := audioData.length ≤ batchEnd
      let isLimitReached := match limitSec with
        | none => false
        | some l => l ≤ (batchEnd : ℚ) / (sampleRate : ℚ)
      let leftoverSamples := buffer.length - lastSplitLocal
      if isEOF || isLimitReached then
        let flush := if 0 < leftoverSamples then
            [ChunkDef.mk gIdx1 (bufferGlobalStart + lastSplitLocal)
              (bufferGlobalStart + buffer.length)]
          else []
        let gIdx2 := if 0 < leftoverSamples then gIdx1 + 1 else gIdx1
        if isLimitReached then (yielded ++ flush, [])
        else
          let rest := getVADChunksGo vocalFilter audioData sampleRate batchSamples
            minSilenceSec silenceThreshold filteringEnabled limitSec fuel batchEnd gIdx2 []
            bufferGlobalStart
          (yielded ++ flush ++ rest.1, 0 :: rest.2)
      else
        if batchSamples * 3 < leftoverSamples then
          let flush := [ChunkDef.mk gIdx1 (bufferGlobalStart + lastSplitLocal)
            (bufferGlobalStart + buffer.length)]
          let rest := getVADChunksGo vocalFilter audioData sampleRate batchSamples
            minSilenceSec silenceThreshold filteringEnabled limitSec fuel batchEnd (gIdx1 + 1) []
            batchEnd
          (yielded ++ flush ++ rest.1, 0 :: rest.2)
        else
          let buffer2 := buffer.drop lastSplitLocal
          let rest := getVADChunksGo vocalFilter audioData sampleRate batchSamples
            minSilenceSec silenceThreshold filteringEnabled limitSec fuel batchEnd gIdx1 buffer2
            (bufferGlobalStart + lastSplitLocal)
          (yielded ++ rest.1, buffer2.length :: rest.2)
    else ([], [])

/-- `getVADChunks`, returning both the chunk list and the trace of retained
leftover-buffer sizes (`BATCH_SAMPLES = batchSizeSec * sampleRate`). -/
def getVADChunksRun (vocalFilter : List ℚ → List ℚ) (audioData : List ℚ)
    (sampleRate batchSizeSec : ℕ) (minSilenceSec silenceThreshold : ℚ)
    (filteringEnabled : Bool) (limitSec : Option ℚ) : List ChunkDef × List ℕ :=
  getVADChunksGo vocalFilter audioData sampleRate (batchSizeSec * sampleRate)
    minSilenceSec silenceThreshold filteringEnabled limitSec
    (audioData.length + 1) 0 0 [] 0

def getVADChunks (vocalFilter : List ℚ → List ℚ) (audioData : List ℚ)
    (sampleRate batchSizeSec : ℕ) (minSilenceSec silenceThreshold : ℚ)
    (filteringEnabled : Bool) (limitSec : Option ℚ) : List ChunkDef :=
  (getVADChunksRun vocalFilter audioData sampleRate batchSizeSec minSilenceSec
    silenceThreshold filteringEnabled limitSec).1

/-- 60-sample test signal at 100 Hz: 0.25 s voice, 0.1 s silence, a 0.05 s
voiced blip, 0.1 s silence, 0.1 s voice. -/
def vadDemoAudio : List ℚ :=
  List.replicate 25 2 ++ List.replicate 10 0 ++ List.replicate 5 2 ++
    List.replicate 10 0 ++ List.replicate 10 2

example : scanForSplitPoints vadDemoAudio 100 0.1 1 = [30, 45] := by decide
example : getVADChunks id vadDemoAudio 100 1 0.1 1 false none =
    [ChunkDef.mk 0 0 30, ChunkDef.mk 1 45 60] := by decide

/-- A subtitle segment: `{id, start, end, text}` with times in seconds,
absolute to the full-file timeline. -/
structure Seg where
  id : ℕ
  start : ℚ
  «end» : ℚ
  text : String
deriving DecidableEq, Repr

/-- The comparison relation of `sort((a, b) => a.start - b.start)`. -/
def startLE (a b : Seg) : Prop := a.start ≤ b.start

instance : DecidableRel startLE := fun a b => inferInstanceAs (Decidable (a.start ≤ b.start))

instance : IsTotal Seg startLE := ⟨fun a b => le_total a.start b.start⟩

instance : IsTrans Seg startLE := ⟨fun _ _ _ h h' => le_trans h h'⟩

/-- `allSegments.sort((a, b) => a.start - b.start)`: JavaScript's `sort` is
stable, so it is modelled by the (stable) insertion sort. -/
def sortByStart (l : List Seg) : List Seg := l.insertionSort startLE

/-- `.map((s, i) => ({ ...s, id: i }))`: reassign dense 0-based ids. -/
def reindexFrom (n : ℕ) : List Seg → List Seg
  | [] => []
  | s :: r => { s with id := n } :: reindexFrom (n + 1) r

def reindex (l : List Seg) : List Seg := reindexFrom 0 l

/-- The common `if (seg.end > seg.start) push(seg)` acceptance guard. -/
def pushGuard (acc : List Seg) (seg : Seg) : List Seg :=
  if seg.«end» > seg.start then acc ++ [seg] else acc

/-- One step of the local-server dedup loop
(`generateSubtitlesLocalServer`, adapter source lines 202–211): compare the
incoming segment against the current last element only; drop on byte-equal
text, drop on the (lowercased, trimmed) suffix rule with threshold 3,
otherwise accept when `end > start`. -/
def lsStep (allSegments : List Seg) (seg : Seg) : List Seg :=
  match allSegments.getLast? with
  | some last =>
      if seg.text = last.text then allSegments
      else
        let cleanSeg := jsTrim (jsToLower seg.text)
        let cleanLast := jsTrim (jsToLower last.text)
        if cleanSeg.length > 3 && jsEndsWith cleanLast cleanSeg then allSegments
        else pushGuard allSegments seg
  | none => pushGuard allSegments seg

/-- `.replace(/[.,?!]/g, '')`. -/
def stripPunct (s : String) : String :=
  ⟨s.data.filter (fun c => !(c = '.' || c = ',' || c = '?' || c = '!'))⟩

/-- One step of the in-process worker dedup loop (`offlineASR.ts`, lines
142–155): drop on byte-equal text; drop on the (lowercased,
punctuation-stripped, trimmed) suffix rule with threshold 2; inside an
overlap of at least 0.5 s drop a segment that ends no later than the last
one; otherwise accept when `end > start` (the `< 0.5` overlap branch is an
empty "fix later" block that falls through to the acceptance guard). -/
def offStep (accumulated : List Seg) (seg : Seg) : List Seg :=
  match accumulated.getLast? with
  | some last =>
      if seg.text = last.text then accumulated
      else
        let cleanSeg := jsTrim (stripPunct (jsToLower seg.text))
        let cleanLast := jsTrim (stripPunct (jsToLower last.text))
        if cleanSeg.length > 2 && jsEndsWith cleanLast cleanSeg then accumulated
        else if seg.start < last.«end» then
          if last.«end» - seg.start < 0.5 then pushGuard accumulated seg
          else if seg.«end» ≤ last.«end» then accumulated
          else pushGuard accumulated seg
        else pushGuard accumulated seg
  | none => pushGuard accumulated seg

/-- `hay.includes(needle)`. -/
def containsSub : List Char → List Char → Bool
  | _, [] => true
  | [], _ :: _ => false
  | h :: t, n :: ns => ((n :: ns) == (h :: t).take (n :: ns).length) || containsSub t (n :: ns)

def jsIncludes (hay needle : String) : Bool := containsSub hay.data needle.data

/-- The denylist filter of the in-process worker adapter (lines 134–140):
reject empty text, filler phrases, credit lines, and degenerate
short-duration segments with long text. -/
def offValidFilter (s : Seg) : Bool :=
  if s.text = "" then false
  else
    let t := jsTrim (jsToLower s.text)
    if t = "you" || t = "thank you" || t = "thanks for watching" ||
        jsIncludes t "subtitle by" || t = "." then false
    else if s.«end» - s.start < 0.1 && t.length > 5 then false
    else true

/-- A sub-segment streamed by the in-process model worker in a `partial`
event: `{text, timestamp: [start, end]}` (already rebased by the worker). -/
structure WorkerItem where
  tsStart : ℚ
  tsEnd : ℚ
  text : String
deriving DecidableEq, Repr

/-- The `partial`-event handler of the worker message loop (lines 123–160):
coerce the payload to segments, filter, fold through the dedup step, then
sort by start and reassign dense ids; the result is both stored and
published. -/
def offHandleMsg (accumulated : List Seg) (data : List WorkerItem) : List Seg :=
  let rawSegments := data.map (fun c => Seg.mk 0 c.tsStart c.tsEnd (jsTrim c.text))
  let validSegments := rawSegments.filter offValidFilter
  let merged := validSegments.foldl offStep accumulated
  reindex (sortByStart merged)

/-- Everything the worker sends back for one chunk: the `partial` event
payloads followed by either `complete` or `error`. -/
inductive WorkerOutcome where
  | success (events : List (List WorkerItem))
  | failure (events : List (List WorkerItem)) (msg : String)

/-- `checkCancelled()` at the top-of-loop check of iteration `i`, when the
global job counter was bumped while iteration `cancelDuring`'s backend call
was in flight. -/
def cancelledAt (cancelDuring : Option ℕ) (i : ℕ) : Bool :=
  match cancelDuring with
  | some k => decide (k < i)
  | none => false

/-- Process one chunk's stream of `partial` events, returning the final
accumulated list and each published list. -/
def offProcessEvents (acc : List Seg) : List (List WorkerItem) → List Seg × List (List Seg)
  | [] => (acc, [])
  | d :: rest =>
      let acc' := offHandleMsg acc d
      let out := offProcessEvents acc' rest
      (out.1, acc' :: out.2)

/-- The chunk loop of `generateSubtitlesOffline` (lines 224–273): per chunk,
check cancellation, then run the worker; `partial` events update and publish
the accumulated list, `complete` sorts/reindexes/publishes once more, and a
worker `error` rejects the adapter's promise (`chunkReject` → outer `catch`
→ `reject`).  Returns the promise outcome together with every published
list. -/
def generateSubtitlesOfflineGo (outcome : ℕ → WorkerOutcome) (cancelDuring : Option ℕ) :
    List ChunkDef → ℕ → List Seg → Except String (List Seg) × List (List Seg)
  | [], _, acc => (Except.ok acc, [])
  | _chunk :: rest, i, acc =>
      if cancelledAt cancelDuring i then (Except.ok acc, [])
      else
        match outcome i with
        | WorkerOutcome.success events =>
            let stepOut := offProcessEvents acc events
            let acc2 := reindex (sortByStart stepOut.1)
            let out := generateSubtitlesOfflineGo outcome cancelDuring rest (i + 1) acc2
            (out.1, stepOut.2 ++ [acc2] ++ out.2)
        | WorkerOutcome.failure events msg =>
            let stepOut := offProcessEvents acc events
            (Except.error msg, stepOut.2)

/-- `generateSubtitlesOffline`, modelled over the per-chunk worker outcomes
(the accumulator starts empty for each run, as in the source). -/
def generateSubtitlesOffline (outcome : ℕ → WorkerOutcome) (cancelDuring : Option ℕ)
    (chunks : List ChunkDef) : Except String (List Seg) × List (List Seg) :=
  generateSubtitlesOfflineGo outcome cancelDuring chunks 0 []

/-- One raw segment of a local-server response (`verbose_json` segment or
bare-array element): timestamp fields may be numbers or strings, `text` may
be absent. -/
structure LSRawSeg where
  start : JSVal
  «end» : JSVal
  text : Option String
deriving DecidableEq, Repr

/-- Outcome of one chunk's `fetch` against the local ASR server.  `err`
covers every throwing path (network rejection, malformed JSON) as well as a
non-2xx `response.ok` — all silently swallowed by the adapter. -/
inductive LSResponse where
  | err
  | segArr (segs : List LSRawSeg)
  | bareArr (segs : List LSRawSeg)
  | textOnly (t : String)
  | other
deriving DecidableEq, Repr

/-- Response-shape normalization (lines 184–187): a `segments` array, a bare
array, or a single non-empty `text` field spanning the whole chunk. -/
def lsRawSegments (resp : LSResponse) (chunkDuration : ℚ) : List LSRawSeg :=
  match resp with
  | LSResponse.err => []
  | LSResponse.segArr segs => segs
  | LSResponse.bareArr segs => segs
  | LSResponse.textOnly t =>
      if t = "" then [] else [LSRawSeg.mk (JSVal.num 0) (JSVal.num chunkDuration) (some t)]
  | LSResponse.other => []

/-- Map raw response segments to absolute-time subtitle segments (lines
191–200): parse, scale, rebase by the chunk start, trim text, and keep only
non-empty texts. -/
def lsChunkSegments (raw : List LSRawSeg) (scale chunkStartTime : ℚ) : List Seg :=
  (raw.map (fun s =>
      let startRaw := (parseTimestamp s.start).toQ
      let endRaw := (parseTimestamp s.«end»).toQ
      Seg.mk 0 (startRaw * scale + chunkStartTime) (endRaw * scale + chunkStartTime)
        ((s.text.map jsTrim).getD ""))).filter (fun s => s.text.length > 0)

/-- Per-chunk processing of the local-server adapter (lines 178–216): a
throwing/non-OK response is swallowed (`none` — no merge, no publication);
otherwise, when the normalized raw segment list is non-empty, choose the
scale (`config.timeScale || detectTimeScale(...)` — a configured `0` is
falsy and falls back to detection), map to absolute segments, fold through
the dedup step and sort; `some` returns the new accumulated list,
which the adapter publishes reindexed. -/
def lsProcessChunk (resp : LSResponse) (timeScaleCfg : Option ℚ)
    (chunkStartTime chunkDuration : ℚ) (allSegments : List Seg) : Option (List Seg) :=
  match resp with
  | LSResponse.err => none
  | _ =>
      let rawSegments := lsRawSegments resp chunkDuration
      if rawSegments.length > 0 then
        let detected := detectTimeScale (rawSegments.map (fun s => RawVal.mk s.start s.«end»))
          chunkDuration
        let scale := match timeScaleCfg with
          | some q => if q = 0 then detected else q
          | none => detected
        let chunkSegments := lsChunkSegments rawSegments scale chunkStartTime
        let merged := chunkSegments.foldl lsStep allSegments
        some (sortByStart merged)
      else none

/-- An observable event of an adapter run: a progress publication, or the
instant the job was cancelled (the global counter was bumped). -/
inductive PEvent where
  | publish (segs : List Seg)
  | cancelEvt
deriving DecidableEq, Repr

/-- The chunk loop of `generateSubtitlesLocalServer` (lines 155–217):
`checkCancelled()` is consulted once per iteration, before dispatching the
chunk; the backend call then runs to completion and its merged result is
published with no further liveness check.  `cancelDuring = some i` places
the cancellation instant during iteration `i`'s backend call.  Returns the
resolved value (the accumulated list, reindexed) and the ordered event
trace. -/
def generateSubtitlesLocalServerGo (audioLen sampleRate : ℕ) (backend : ℕ → LSResponse)
    (timeScaleCfg : Option ℚ) (cancelDuring : Option ℕ) :
    List ChunkDef → ℕ → List Seg → List Seg × List PEvent
  | [], _, allSegments => (reindex allSegments, [])
  | chunk :: rest, i, allSegments =>
      if cancelledAt cancelDuring i then (reindex allSegments, [])
      else
        let cEvt := if cancelDuring = some i then [PEvent.cancelEvt] else []
        let chunkStartTime : ℚ := (chunk.start : ℚ) / (sampleRate : ℚ)
        let sliceLen := min chunk.«end» audioLen - min chunk.start audioLen
        let chunkDuration : ℚ := (sliceLen : ℚ) / (sampleRate : ℚ)
        match lsProcessChunk (backend i) timeScaleCfg chunkStartTime chunkDuration allSegments with
        | none =>
            let out := generateSubtitlesLocalServerGo audioLen sampleRate backend timeScaleCfg
              cancelDuring rest (i + 1) allSegments
            (out.1, cEvt ++ out.2)
        | some acc' =>
            let out := generateSubtitlesLocalServerGo audioLen sampleRate backend timeScaleCfg
              cancelDuring rest (i + 1) acc'
            (out.1, cEvt ++ PEvent.publish (reindex acc') :: out.2)

/-- `generateSubtitlesLocalServer`, from an empty accumulator. -/
def generateSubtitlesLocalServer (audioLen sampleRate : ℕ) (backend : ℕ → LSResponse)
    (timeScaleCfg : Option ℚ) (cancelDuring : Option ℕ) (chunks : List ChunkDef) :
    List Seg × List PEvent :=
  generateSubtitlesLocalServerGo audioLen sampleRate backend timeScaleCfg cancelDuring chunks 0 []

/-- One raw segment of a cloud (structured-output) response: the schema
constrains `start`/`end` to JSON numbers. -/
structure CloudRawSeg where
  start : ℚ
  «end» : ℚ
  text : String
deriving DecidableEq, Repr

/-- Outcome of one attempt of the cloud adapter's `generateContent` call. -/
inductive CloudAttempt where
  | throws
  | emptyText
  | ok (segs : List CloudRawSeg)

def MAX_RETRIES : ℕ := 3

/-- Success-path processing of `processChunk` (`generateSubtitlesOnline`,
lines 106–115): detect the scale, rebase timestamps by the chunk offset,
trim text and drop empty texts.  There is no `end > start` guard here. -/
def onlineProcessedSegments (raw : List CloudRawSeg) (actualDuration timeOffset : ℚ) :
    List Seg :=
  let scale := detectTimeScale
    (raw.map (fun s => RawVal.mk (JSVal.num s.start) (JSVal.num s.«end»))) actualDuration
  (raw.map (fun s =>
      Seg.mk 0 ((parseTimestamp (JSVal.num s.start)).toQ * scale + timeOffset)
        ((parseTimestamp (JSVal.num s.«end»)).toQ * scale + timeOffset)
        (jsTrim s.text))).filter (fun s => s.text.length > 0)

/-- The retry loop of `processChunk` (lines 84–125): up to `MAX_RETRIES`
attempts with exponential backoff; an empty response text yields `[]`; once
the attempts are exhausted the chunk yields `[]` (never a rejection). -/
def processChunkOnlineGo (attempts : ℕ → CloudAttempt) (actualDuration timeOffset : ℚ) :
    ℕ → ℕ → List Seg
  | _, 0 => []
  | attempt, fuel + 1 =>
      match attempts attempt with
      | CloudAttempt.ok segs => onlineProcessedSegments segs actualDuration timeOffset
      | CloudAttempt.emptyText => []
      | CloudAttempt.throws => processChunkOnlineGo attempts actualDuration timeOffset
          (attempt + 1) fuel

def processChunkOnline (attempts : ℕ → CloudAttempt) (actualDuration timeOffset : ℚ) :
    List Seg :=
  processChunkOnlineGo attempts actualDuration timeOffset 0 MAX_RETRIES

/-- `updateProgress`'s collection step (lines 53–63): concatenate the chunk
results present in `resultsMap` over the index window. -/
def onlineCollect (resultsMap : ℕ → Option (List Seg)) (indices : List ℕ) : List Seg :=
  indices.foldl (fun acc i =>
    match resultsMap i with
    | some segs => acc ++ segs
    | none => acc) []

/-- `updateProgress`: publish the sorted, densely reindexed concatenation
whenever it is non-empty (the workers call this after every chunk, in any
completion order). -/
def onlineUpdateProgress (resultsMap : ℕ → Option (List Seg)) (indices : List ℕ) :
    Option (List Seg) :=
  let allSegments := onlineCollect resultsMap indices
  if allSegments.length > 0 then some (reindex (sortByStart allSegments)) else none

/-- The final resolution of `generateSubtitlesOnline` (lines 150–156). -/
def onlineFinal (resultsMap : ℕ → Option (List Seg)) (indices : List ℕ) : List Seg :=
  reindex (sortByStart (onlineCollect resultsMap indices))

/-- The orchestrator `generateSubtitles` around audio acquisition: a decode
failure rejects the whole call before any chunking; otherwise the selected
adapter's outcome is returned as-is. -/
def generateSubtitlesOrch (audio : Except String (List ℚ))
    (adapter : List ℚ → Except String (List Seg)) : Except String (List Seg) :=
  match audio with
  | Except.error e => Except.error e
  | Except.ok audioData => adapter audioData


/-! ### Invariants of published segment lists -/

/-- Every segment has a positive duration (`end > start`). -/
def allPos (l : List Seg) : Prop := ∀ s ∈ l, s.start < s.«end»

/-- The list is sorted ascending by `start`. -/
def sortedByStart (l : List Seg) : Prop := l.Pairwise startLE

/-- Every `id` equals the segment's position in the list. -/
def denseIds (l : List Seg) : Prop :=
  ∀ (i : ℕ) (h : i < l.length), (l.get ⟨i, h⟩).id = i

/-- The full subtitle-segment data-model invariant. -/
def segInv (l : List Seg) : Prop := allPos l ∧ sortedByStart l ∧ denseIds l

theorem sortedByStart_sortByStart (l : List Seg) : sortedByStart (sortByStart l) :=
  List.sorted_insertionSort startLE l

theorem mem_sortByStart {s : Seg} {l : List Seg} : s ∈ sortByStart l ↔ s ∈ l :=
  (List.perm_insertionSort startLE l).mem_iff

theorem allPos_sortByStart {l : List Seg} (h : allPos l) : allPos (sortByStart l) :=
  fun s hs => h s (mem_sortByStart.mp hs)

theorem length_reindexFrom (n : ℕ) (l : List Seg) : (reindexFrom n l).length = l.length := by
  induction l generalizing n with
  | nil => rfl
  | cons s r ih => simp [reindexFrom, ih]

theorem get_reindexFrom_id (n : ℕ) (l : List Seg) (i : ℕ)
    (h : i < (reindexFrom n l).length) : ((reindexFrom n l).get ⟨i, h⟩).id = n + i := by
  induction l generalizing n i with
  | nil => simp [reindexFrom] at h
  | cons s r ih =>
      cases i with
      | zero => rfl
      | succ j =>
          have h' : j < (reindexFrom (n + 1) r).length := by
            simpa [reindexFrom] using h
          have := ih (n + 1) j h'
          simpa [reindexFrom, Nat.add_assoc, Nat.add_comm 1 j] using this

theorem denseIds_reindex (l : List Seg) : denseIds (reindex l) := by
  intro i h
  simpa using get_reindexFrom_id 0 l i h

theorem mem_reindexFrom {s : Seg} {n : ℕ} {l : List Seg} :
    s ∈ reindexFrom n l → ∃ t ∈ l, s.start = t.start ∧ s.«end» = t.«end» ∧ s.text = t.text := by
  induction l generalizing n with
  | nil => intro h; simp [reindexFrom] at h
  | cons a r ih =>
      intro h
      rcases List.mem_cons.mp h with h | h
      · subst h; exact ⟨a, List.mem_cons_self a r, rfl, rfl, rfl⟩
      · obtain ⟨t, ht, h1, h2, h3⟩ := ih h
        exact ⟨t, List.mem_cons_of_mem a ht, h1, h2, h3⟩

theorem allPos_reindexFrom {n : ℕ} {l : List Seg} (h : allPos l) :
    allPos (reindexFrom n l) := by
  intro s hs
  obtain ⟨t, ht, h1, h2, _⟩ := mem_reindexFrom hs
  rw [h1, h2]; exact h t ht

theorem allPos_reindex {l : List Seg} (h : allPos l) : allPos (reindex l) :=
  allPos_reindexFrom h

theorem sortedByStart_reindexFrom {n : ℕ} {l : List Seg} (h : sortedByStart l) :
    sortedByStart (reindexFrom n l) := by
  induction h generalizing n with
  | nil => exact List.Pairwise.nil
  | @cons a r ha _ ih =>
      refine List.Pairwise.cons ?_ ih
      intro b hb
      obtain ⟨t, ht, h1, _, _⟩ := mem_reindexFrom hb
      show ({ a with id := n } : Seg).start ≤ b.start
      rw [h1]
      exact ha t ht

theorem sortedByStart_reindex {l : List Seg} (h : sortedByStart l) :
    sortedByStart (reindex l) :=
  sortedByStart_reindexFrom h

/-- The published form `reindex (sortByStart l)` satisfies the sorted and
dense-id parts of the invariant unconditionally, and `allPos` when the
merged list does. -/
theorem segInv_publish {l : List Seg} (h : allPos l) :
    segInv (reindex (sortByStart l)) :=
  ⟨allPos_reindex (allPos_sortByStart h),
    sortedByStart_reindex (sortedByStart_sortByStart l),
    denseIds_reindex _⟩

theorem segInv_nil : segInv [] :=
  ⟨fun s hs => absurd hs (List.not_mem_nil s),
    List.Pairwise.nil, fun i h => absurd h (by simp)⟩

theorem allPos_pushGuard {acc : List Seg} (h : allPos acc) (seg : Seg) :
    allPos (pushGuard acc seg) := by
  unfold pushGuard
  split
  · intro s hs
    rcases List.mem_append.mp hs with hs | hs
    · exact h s hs
    · rcases List.mem_singleton.mp hs with rfl
      assumption
  · exact h

theorem allPos_lsStep {acc : List Seg} (h : allPos acc) (seg : Seg) :
    allPos (lsStep acc seg) := by
  unfold lsStep
  rcases acc.getLast? with _ | last
  · exact allPos_pushGuard h seg
  · dsimp only
    split
    · exact h
    · split
      · exact h
      · exact allPos_pushGuard h seg

theorem allPos_offStep {acc : List Seg} (h : allPos acc) (seg : Seg) :
    allPos (offStep acc seg) := by
  unfold offStep
  rcases acc.getLast? with _ | last
  · exact allPos_pushGuard h seg
  · dsimp only
    split
    · exact h
    · split
      · exact h
      · split
        · split
          · exact allPos_pushGuard h seg
          · split
            · exact h
            · exact allPos_pushGuard h seg
        · exact allPos_pushGuard h seg

theorem allPos_foldl_lsStep {acc : List Seg} (h : allPos acc) (batch : List Seg) :
    allPos (batch.foldl lsStep acc) := by
  induction batch generalizing acc with
  | nil => exact h
  | cons s r ih => exact ih (allPos_lsStep h s)

theorem allPos_foldl_offStep {acc : List Seg} (h : allPos acc) (batch : List Seg) :
    allPos (batch.foldl offStep acc) := by
  induction batch generalizing acc with
  | nil => exact h
  | cons s r ih => exact ih (allPos_offStep h s)

/-- The progress publications contained in an event trace. -/
def publishes (evts : List PEvent) : List (List Seg) :=
  evts.filterMap (fun e => match e with
    | PEvent.publish p => some p
    | PEvent.cancelEvt => none)

theorem publishes_nil : publishes [] = [] := rfl

theorem publishes_cancel_cons (t : List PEvent) :
    publishes (PEvent.cancelEvt :: t) = publishes t := rfl

theorem publishes_publish_cons (p : List Seg) (t : List PEvent) :
    publishes (PEvent.publish p :: t) = p :: publishes t := rfl

theorem publishes_append (l₁ l₂ : List PEvent) :
    publishes (l₁ ++ l₂) = publishes l₁ ++ publishes l₂ :=
  List.filterMap_append l₁ l₂ _

theorem lsProcessChunk_invariant {resp : LSResponse} {cfg : Option ℚ} {t d : ℚ}
    {acc acc' : List Seg} (hpos : allPos acc)
    (h : lsProcessChunk resp cfg t d acc = some acc') :
    allPos acc' ∧ sortedByStart acc' := by
  have key : ∃ merged, acc' = sortByStart merged ∧ allPos merged := by
    cases resp with
    | err => exact absurd h (by simp [lsProcessChunk])
    | segArr segs =>
        rw [lsProcessChunk] at h
        split at h
        · exact ⟨_, (Option.some_injective _ h).symm, allPos_foldl_lsStep hpos _⟩
        · exact absurd h (by simp)
        · simp
    | bareArr segs =>
        rw [lsProcessChunk] at h
        split at h
        · exact ⟨_, (Option.some_injective _ h).symm, allPos_foldl_lsStep hpos _⟩
        · exact absurd h (by simp)
        · simp
    | textOnly s =>
        rw [lsProcessChunk] at h
        split at h
        · exact ⟨_, (Option.some_injective _ h).symm, allPos_foldl_lsStep hpos _⟩
        · exact absurd h (by simp)
        · simp
    | other =>
        rw [lsProcessChunk] at h
        split at h
        · exact ⟨_, (Option.some_injective _ h).symm, allPos_foldl_lsStep hpos _⟩
        · exact absurd h (by simp)
        · simp
  obtain ⟨merged, rfl, hm⟩ := key
  exact ⟨allPos_sortByStart hm, sortedByStart_sortByStart merged⟩

theorem lsGo_invariant (audioLen sampleRate : ℕ) (backend : ℕ → LSResponse)
    (cfg : Option ℚ) (cd : Option ℕ) :
    ∀ (chunks : List ChunkDef) (i : ℕ) (acc : List Seg), allPos acc → sortedByStart acc →
      (∀ p ∈ publishes
        (generateSubtitlesLocalServerGo audioLen sampleRate backend cfg cd chunks i acc).2,
        segInv p) ∧
      segInv (generateSubtitlesLocalServerGo audioLen sampleRate backend cfg cd chunks i acc).1 := by
  intro chunks
  induction chunks with
  | nil =>
      intro i acc hp hs
      refine ⟨?_, allPos_reindex hp, sortedByStart_reindex hs, denseIds_reindex _⟩
      simp [generateSubtitlesLocalServerGo, publishes]
  | cons c rest ih =>
      intro i acc hp hs
      rw [generateSubtitlesLocalServerGo]
      split
      · refine ⟨?_, allPos_reindex hp, sortedByStart_reindex hs, denseIds_reindex _⟩
        simp [publishes]
      · cases hm : lsProcessChunk (backend i) cfg ((c.start : ℚ) / (sampleRate : ℚ))
            (((min c.«end» audioLen - min c.start audioLen : ℕ) : ℚ) / (sampleRate : ℚ)) acc with
        | none =>
            simp only [hm]
            obtain ⟨ihp, ihinv⟩ := ih (i + 1) acc hp hs
            refine ⟨?_, ihinv⟩
            intro p hmem
            apply ihp
            rw [publishes_append] at hmem
            rcases List.mem_append.mp hmem with hbad | hgood
            · exact absurd hbad (by split <;> simp [publishes])
            · exact hgood
        | some acc' =>
            simp only [hm]
            obtain ⟨hp', hs'⟩ := lsProcessChunk_invariant hp hm
            obtain ⟨ihp, ihinv⟩ := ih (i + 1) acc' hp' hs'
            refine ⟨?_, ihinv⟩
            intro p hmem
            rw [publishes_append] at hmem
            rcases List.mem_append.mp hmem with hmem | hmem
            · exact absurd hmem (by split <;> simp [publishes])
            · rw [publishes_publish_cons] at hmem
              rcases List.mem_cons.mp hmem with rfl | hmem
              · exact ⟨allPos_reindex hp', sortedByStart_reindex hs', denseIds_reindex _⟩
              · exact ihp p hmem

theorem offHandleMsg_segInv {acc : List Seg} (hp : allPos acc) (data : List WorkerItem) :
    segInv (offHandleMsg acc data) :=
  segInv_publish (allPos_foldl_offStep hp _)

theorem offProcessEvents_invariant {acc : List Seg} (hp : allPos acc) :
    ∀ events : List (List WorkerItem),
      allPos (offProcessEvents acc events).1 ∧
      ∀ p ∈ (offProcessEvents acc events).2, segInv p := by
  intro events
  induction events generalizing acc with
  | nil => exact ⟨hp, by simp [offProcessEvents]⟩
  | cons d rest ih =>
      have hinv := offHandleMsg_segInv hp d
      obtain ⟨h1, h2⟩ := ih hinv.1
      refine ⟨h1, ?_⟩
      intro p hmem
      rcases List.mem_cons.mp hmem with rfl | hmem
      · exact hinv
      · exact h2 p hmem

theorem offGo_invariant (outcome : ℕ → WorkerOutcome) (cd : Option ℕ) :
    ∀ (chunks : List ChunkDef) (i : ℕ) (acc : List Seg), segInv acc →
      (∀ p ∈ (generateSubtitlesOfflineGo outcome cd chunks i acc).2, segInv p) ∧
      (∀ r, (generateSubtitlesOfflineGo outcome cd chunks i acc).1 = Except.ok r → segInv r) := by
  intro chunks
  induction chunks with
  | nil =>
      intro i acc hinv
      refine ⟨by simp [generateSubtitlesOfflineGo], ?_⟩
      intro r hr
      injection hr with hr
      exact hr ▸ hinv
  | cons c rest ih =>
      intro i acc hinv
      rw [generateSubtitlesOfflineGo]
      split
      · refine ⟨by simp, ?_⟩
        intro r hr
        injection hr with hr
        exact hr ▸ hinv
      · cases outcome i with
        | success events =>
            obtain ⟨hstep, hpubs⟩ := offProcessEvents_invariant hinv.1 events
            have hacc2 : segInv (reindex (sortByStart (offProcessEvents acc events).1)) :=
              segInv_publish hstep
            obtain ⟨ihp, ihr⟩ := ih (i + 1) _ hacc2
            constructor
            · intro p hmem
              dsimp only at hmem
              rcases List.mem_append.mp hmem with hmem | hmem
              · rcases List.mem_append.mp hmem with hmem | hmem
                · exact hpubs p hmem
                · rcases List.mem_singleton.mp hmem with rfl
                  exact hacc2
              · exact ihp p hmem
            · intro r hr
              exact ihr r hr
        | failure events msg =>
            obtain ⟨_, hpubs⟩ := offProcessEvents_invariant hinv.1 events
            exact ⟨hpubs, fun r hr => by cases hr⟩

theorem onlineUpdateProgress_invariant (resultsMap : ℕ → Option (List Seg))
    (indices : List ℕ) (p : List Seg) :
    onlineUpdateProgress resultsMap indices = some p → sortedByStart p ∧ denseIds p := by
  simp only [onlineUpdateProgress]
  split
  · intro h
    injection h with h
    subst h
    exact ⟨sortedByStart_reindex (sortedByStart_sortByStart _), denseIds_reindex _⟩
  · intro h
    cases h

theorem onlineFinal_invariant (resultsMap : ℕ → Option (List Seg)) (indices : List ℕ) :
    sortedByStart (onlineFinal resultsMap indices) ∧ denseIds (onlineFinal resultsMap indices) :=
  ⟨sortedByStart_reindex (sortedByStart_sortByStart _), denseIds_reindex _⟩

/-! ### Contiguity of the fixed-schedule chunker -/

/-- `Contig cs a b`: the windows `cs` tile the sample range `[a, b)` exactly,
each window non-empty, consecutive windows sharing their boundary. -/
def Contig : List ChunkDef → ℕ → ℕ → Prop
  | [], a, b => a = b
  | c :: cs, a, b => c.start = a ∧ a < c.«end» ∧ Contig cs c.«end» b

theorem Contig.le : ∀ {cs : List ChunkDef} {a b : ℕ}, Contig cs a b → a ≤ b := by
  intro cs
  induction cs with
  | nil => intro a b h; exact le_of_eq h
  | cons c r ih =>
      rintro a b ⟨h1, h2, h3⟩
      exact le_trans (le_of_lt h2) (ih h3)

theorem Contig.bounds : ∀ {cs : List ChunkDef} {a b : ℕ}, Contig cs a b →
    ∀ c ∈ cs, a ≤ c.start ∧ c.start < c.«end» ∧ c.«end» ≤ b := by
  intro cs
  induction cs with
  | nil => intro a b _ c hc; exact absurd hc (List.not_mem_nil c)
  | cons d r ih =>
      rintro a b ⟨h1, h2, h3⟩ c hc
      rcases List.mem_cons.mp hc with rfl | hc
      · exact ⟨le_of_eq h1.symm, h1 ▸ h2, Contig.le h3⟩
      · obtain ⟨ha, hb, hcend⟩ := ih h3 c hc
        exact ⟨le_trans (le_of_lt h2) ha, hb, hcend⟩

theorem Contig.covers : ∀ {cs : List ChunkDef} {a b : ℕ}, Contig cs a b →
    ∀ n, (∃ c ∈ cs, c.start ≤ n ∧ n < c.«end») ↔ (a ≤ n ∧ n < b) := by
  intro cs
  induction cs with
  | nil =>
      intro a b h n
      subst h
      simp
  | cons c r ih =>
      rintro a b ⟨h1, h2, h3⟩ n
      constructor
      · rintro ⟨d, hd, hle, hlt⟩
        rcases List.mem_cons.mp hd with rfl | hd
        · exact ⟨h1 ▸ hle, lt_of_lt_of_le hlt (Contig.le h3)⟩
        · have hn := (ih h3 n).mp ⟨d, hd, hle, hlt⟩
          exact ⟨le_trans (le_of_lt h2) hn.1, hn.2⟩
      · rintro ⟨hle, hlt⟩
        by_cases hn : n < c.«end»
        · exact ⟨c, List.mem_cons_self c r, h1 ▸ hle, hn⟩
        · obtain ⟨d, hd, h4, h5⟩ := (ih h3 n).mpr ⟨le_of_not_lt hn, hlt⟩
          exact ⟨d, List.mem_cons_of_mem c hd, h4, h5⟩

theorem Contig.disjoint : ∀ {cs : List ChunkDef} {a b : ℕ}, Contig cs a b →
    cs.Pairwise (fun x y => x.«end» ≤ y.start) := by
  intro cs
  induction cs with
  | nil => intro a b _; exact List.Pairwise.nil
  | cons c r ih =>
      rintro a b ⟨h1, h2, h3⟩
      refine List.Pairwise.cons ?_ (ih h3)
      intro d hd
      exact (Contig.bounds h3 d hd).1

theorem Contig.startsStrictMono : ∀ {cs : List ChunkDef} {a b : ℕ}, Contig cs a b →
    cs.Pairwise (fun x y => x.start < y.start) := by
  intro cs
  induction cs with
  | nil => intro a b _; exact List.Pairwise.nil
  | cons c r ih =>
      rintro a b ⟨h1, h2, h3⟩
      refine List.Pairwise.cons ?_ (ih h3)
      intro d hd
      have hd' := (Contig.bounds h3 d hd).1
      have h2' : c.start < c.«end» := h1 ▸ h2
      exact lt_of_lt_of_le h2' hd'

theorem getFixedChunksGo_succ (total rate fuel cursor schedIdx gIdx : ℕ)
    (hrate : 0 < rate) (hc : cursor < total) :
    ∃ chunkEnd, cursor < chunkEnd ∧ chunkEnd ≤ total ∧
      getFixedChunksGo total rate none (fuel + 1) cursor schedIdx gIdx =
        ChunkDef.mk gIdx cursor chunkEnd ::
          getFixedChunksGo total rate none fuel chunkEnd (schedIdx + 1) (gIdx + 1) := by
  have h180 : 0 < STANDARD_CHUNK_DURATION * rate := by
    have : (0:ℕ) < STANDARD_CHUNK_DURATION := by norm_num [STANDARD_CHUNK_DURATION]
    exact Nat.mul_pos this hrate
  simp only [getFixedChunksGo, limitHit, if_pos hc, Bool.false_eq_true, if_false]
  by_cases hs : schedIdx < CHUNK_SCHEDULE_ENDS.length
  · rw [if_pos hs]
    by_cases hce : (CHUNK_SCHEDULE_ENDS.getD schedIdx 0) * rate ≤ cursor
    · rw [if_pos hce]
      refine ⟨min (cursor + STANDARD_CHUNK_DURATION * rate) total, ?_, min_le_right _ _, ?_⟩
      · omega
      · rw [if_neg (by omega)]
    · rw [if_neg hce]
      refine ⟨min ((CHUNK_SCHEDULE_ENDS.getD schedIdx 0) * rate) total, ?_, min_le_right _ _, ?_⟩
      · omega
      · rw [if_neg (by omega)]
  · rw [if_neg hs]
    refine ⟨min (cursor + STANDARD_CHUNK_DURATION * rate) total, ?_, min_le_right _ _, ?_⟩
    · omega
    · rw [if_neg (by omega)]

theorem getFixedChunksGo_done (total rate : ℕ) (lim : Option ℚ) (fuel cursor schedIdx gIdx : ℕ)
    (h : ¬ cursor < total) :
    getFixedChunksGo total rate lim fuel cursor schedIdx gIdx = [] := by
  cases fuel <;> simp [getFixedChunksGo, h]

theorem getFixedChunksGo_contig (total rate : ℕ) (hrate : 0 < rate) :
    ∀ (fuel cursor schedIdx gIdx : ℕ), cursor ≤ total → total - cursor < fuel →
      Contig (getFixedChunksGo total rate none fuel cursor schedIdx gIdx) cursor total := by
  intro fuel
  induction fuel with
  | zero => intro cursor schedIdx gIdx hle hf; omega
  | succ fuel ih =>
      intro cursor schedIdx gIdx hle hf
      by_cases hc : cursor < total
      · obtain ⟨ce, h1, h2, h3⟩ := getFixedChunksGo_succ total rate fuel cursor schedIdx gIdx
          hrate hc
        rw [h3]
        exact ⟨rfl, h1, ih ce _ _ h2 (by omega)⟩
      · have heq : cursor = total := le_antisymm hle (le_of_not_lt hc)
        subst heq
        rw [getFixedChunksGo_done _ _ none _ _ _ _ hc]
        exact rfl

theorem getFixedChunks_contig (L rate : ℕ) (hrate : 0 < rate) :
    Contig (getFixedChunks L rate none) 0 L :=
  getFixedChunksGo_contig L rate hrate (L + 1) 0 0 0 (Nat.zero_le L) (by omega)

theorem getFixedChunks_small (L rate : ℕ) (hrate : 0 < rate) (hL : 0 < L)
    (hle : L ≤ 20 * rate) : getFixedChunks L rate none = [ChunkDef.mk 0 0 L] := by
  have h20 : ¬ (20 * rate ≤ 0) := by omega
  unfold getFixedChunks
  obtain ⟨m, rfl⟩ : ∃ m, L = m + 1 := ⟨L - 1, by omega⟩
  simp only [getFixedChunksGo, limitHit, if_pos hL, Bool.false_eq_true, if_false]
  rw [if_pos (show 0 < CHUNK_SCHEDULE_ENDS.length by norm_num [CHUNK_SCHEDULE_ENDS])]
  have hgetD : CHUNK_SCHEDULE_ENDS.getD 0 0 = 20 := rfl
  rw [hgetD, if_neg h20, min_eq_right hle,
    if_neg (show ¬ (m + 1 ≤ 0) by omega),
    if_neg (show ¬ (m + 1 < m + 1) by omega)]

theorem getVADChunksGo_trace_bound (vf : List ℚ → List ℚ) (audio : List ℚ)
    (rate B : ℕ) (ms th : ℚ) (fe : Bool) (lim : Option ℚ) :
    ∀ (fuel fp g : ℕ) (buf : List ℚ) (bg : ℕ),
      ∀ n ∈ (getVADChunksGo vf audio rate B ms th fe lim fuel fp g buf bg).2, n ≤ B * 3 := by
  intro fuel
  induction fuel with
  | zero => intro fp g buf bg n hn; simp [getVADChunksGo] at hn
  | succ fuel ih =>
      intro fp g buf bg n hn
      rw [getVADChunksGo] at hn
      by_cases h1 : (decide (fp < audio.length) && !limitHit lim rate fp) = true
      case neg =>
        rw [if_neg h1] at hn
        simp at hn
      rw [if_pos h1] at hn
      simp only [] at hn
      revert hn
      generalize min (fp + B) audio.length = be
      generalize buf ++ List.take (be - fp) (List.drop fp audio) = bu
      generalize (if fe = true then vf bu else bu) = ab
      generalize scanForSplitPoints ab rate ms th = sp
      generalize splitEmit rate bg sp 0 g = em
      obtain ⟨yielded, lastSplit, g1⟩ := em
      intro hn
      try dsimp only at hn
      split at hn
      · split at hn
        · simp at hn
        · rcases List.mem_cons.mp hn with rfl | hn
          · omega
          · exact ih _ _ _ _ n hn
      · split at hn
        · rcases List.mem_cons.mp hn with rfl | hn
          · omega
          · exact ih _ _ _ _ n hn
        · rcases List.mem_cons.mp hn with heq | hn
          · rw [List.length_drop] at heq
            omega
          · exact ih _ _ _ _ n hn

theorem splitEmit_dur (rate bg : ℕ) :
    ∀ (splits : List ℕ) (lastSplit g : ℕ),
      ∀ c ∈ (splitEmit rate bg splits lastSplit g).1,
        (0.2 : ℚ) < ((c.«end» : ℚ) - (c.start : ℚ)) / (rate : ℚ) := by
  intro splits
  induction splits with
  | nil => intro l g c hc; simp [splitEmit] at hc
  | cons p rest ih =>
      intro l g c hc
      rw [splitEmit] at hc
      split at hc
      · rcases List.mem_cons.mp hc with rfl | hc
        · have hcast : (((bg + p : ℕ) : ℚ)) - ((bg + l : ℕ) : ℚ) = (p : ℚ) - (l : ℚ) := by
            push_cast
            ring
          show (0.2 : ℚ) < (((bg + p : ℕ) : ℚ) - ((bg + l : ℕ) : ℚ)) / (rate : ℚ)
          rw [hcast]
          assumption
        · exact ih _ _ c hc
      · exact ih _ _ c hc

theorem splitEmit_skip (rate bg p : ℕ) (rest : List ℕ) (lastSplit g : ℕ)
    (h : ¬ ((0.2 : ℚ) < ((p : ℚ) - (lastSplit : ℚ)) / (rate : ℚ))) :
    splitEmit rate bg (p :: rest) lastSplit g = splitEmit rate bg rest p g := by
  rw [splitEmit]
  exact if_neg h

/-! ### Cancellation trace helpers -/

def isPub : PEvent → Bool
  | PEvent.publish _ => true
  | PEvent.cancelEvt => false

/-- The number of progress publications occurring after the cancellation
instant in an event trace (0 when the trace has no cancellation event). -/
def pubsAfterCancel (evts : List PEvent) : ℕ :=
  (evts.dropWhile (fun e => !(e == PEvent.cancelEvt))).countP isPub

theorem pubsAfterCancel_nil : pubsAfterCancel [] = 0 := rfl

theorem pubsAfterCancel_publish_cons (p : List Seg) (t : List PEvent) :
    pubsAfterCancel (PEvent.publish p :: t) = pubsAfterCancel t := by
  simp [pubsAfterCancel, List.dropWhile_cons]

theorem pubsAfterCancel_cancel_cons (t : List PEvent) :
    pubsAfterCancel (PEvent.cancelEvt :: t) = t.countP isPub := by
  simp [pubsAfterCancel, List.dropWhile_cons, isPub]

theorem lsGo_stopped (len rate : ℕ) (backend : ℕ → LSResponse) (cfg : Option ℚ)
    (k : ℕ) (chunks : List ChunkDef) (i : ℕ) (acc : List Seg) (h : k < i) :
    generateSubtitlesLocalServerGo len rate backend cfg (some k) chunks i acc =
      (reindex acc, []) := by
  cases chunks with
  | nil => rfl
  | cons c rest =>
      rw [generateSubtitlesLocalServerGo]
      rw [if_pos]
      simp [cancelledAt, h]

/-- After the cancellation instant, the local-server loop publishes at most
once more (the chunk whose backend call was in flight); every later chunk is
stopped by the pre-dispatch `checkCancelled` test. -/
theorem lsGo_pubsAfterCancel (len rate : ℕ) (backend : ℕ → LSResponse) (cfg : Option ℚ)
    (cd : Option ℕ) :
    ∀ (chunks : List ChunkDef) (i : ℕ) (acc : List Seg),
      pubsAfterCancel (generateSubtitlesLocalServerGo len rate backend cfg cd chunks i acc).2 ≤ 1 := by
  intro chunks
  induction chunks with
  | nil => intro i acc; simp [generateSubtitlesLocalServerGo, pubsAfterCancel_nil]
  | cons c rest ih =>
      intro i acc
      rw [generateSubtitlesLocalServerGo]
      split
      · simp [pubsAfterCancel_nil]
      · by_cases hci : cd = some i
        · subst hci
          have hstop : ∀ acc', generateSubtitlesLocalServerGo len rate backend cfg (some i)
              rest (i + 1) acc' = (reindex acc', []) :=
            fun acc' => lsGo_stopped len rate backend cfg i rest (i + 1) acc' (by omega)
          cases hm : lsProcessChunk (backend i) cfg ((c.start : ℚ) / (rate : ℚ))
              (((min c.«end» len - min c.start len : ℕ) : ℚ) / (rate : ℚ)) acc with
          | none =>
              simp only [hm, hstop, if_pos rfl]
              simp [pubsAfterCancel_cancel_cons, isPub]
          | some acc' =>
              simp only [hm, hstop, if_pos rfl]
              simp [pubsAfterCancel_cancel_cons, isPub]
        · rw [if_neg hci]
          cases hm : lsProcessChunk (backend i) cfg ((c.start : ℚ) / (rate : ℚ))
              (((min c.«end» len - min c.start len : ℕ) : ℚ) / (rate : ℚ)) acc with
          | none =>
              simp only [hm, List.nil_append]
              exact ih (i + 1) acc
          | some acc' =>
              simp only [hm, List.nil_append, pubsAfterCancel_publish_cons]
              exact ih (i + 1) acc'

/-- The run of a cancelled job cannot depend on the backend responses of
chunks dispatched after the cancellation: with cancellation during iteration
`k`, only responses at positions `≤ k` can influence the result or the
event trace. -/
theorem lsGo_backend_irrelevant (len rate : ℕ) (cfg : Option ℚ) (k : ℕ)
    (b b' : ℕ → LSResponse) (hbb : ∀ j, j ≤ k → b j = b' j) :
    ∀ (chunks : List ChunkDef) (i : ℕ) (acc : List Seg),
      generateSubtitlesLocalServerGo len rate b cfg (some k) chunks i acc =
        generateSubtitlesLocalServerGo len rate b' cfg (some k) chunks i acc := by
  intro chunks
  induction chunks with
  | nil => intro i acc; rfl
  | cons c rest ih =>
      intro i acc
      rw [generateSubtitlesLocalServerGo, generateSubtitlesLocalServerGo]
      by_cases hci : cancelledAt (some k) i = true
      · rw [if_pos hci, if_pos hci]
      · rw [if_neg hci, if_neg hci]
        have hik : i ≤ k := by
          simp [cancelledAt] at hci
          omega
        rw [hbb i hik]
        simp only [ih]

theorem lsProcessChunk_err (cfg : Option ℚ) (t d : ℚ) (acc : List Seg) :
    lsProcessChunk LSResponse.err cfg t d acc = none := rfl

theorem lsProcessChunk_emptyArr (cfg : Option ℚ) (t d : ℚ) (acc : List Seg) :
    lsProcessChunk (LSResponse.segArr []) cfg t d acc = none := by
  simp [lsProcessChunk, lsRawSegments]

/-- A chunk whose backend call fails behaves exactly like a chunk whose
response carries no segments: the failure is swallowed, nothing is merged or
published, and the loop continues identically with the remaining chunks. -/
theorem lsGo_err_eq_empty (len rate : ℕ) (cfg : Option ℚ) (cd : Option ℕ) (k : ℕ)
    (b : ℕ → LSResponse) (hb : b k = LSResponse.err) :
    ∀ (chunks : List ChunkDef) (i : ℕ) (acc : List Seg),
      generateSubtitlesLocalServerGo len rate b cfg cd chunks i acc =
        generateSubtitlesLocalServerGo len rate
          (Function.update b k (LSResponse.segArr [])) cfg cd chunks i acc := by
  intro chunks
  induction chunks with
  | nil => intro i acc; rfl
  | cons c rest ih =>
      intro i acc
      rw [generateSubtitlesLocalServerGo, generateSubtitlesLocalServerGo]
      by_cases hci : cancelledAt cd i = true
      · rw [if_pos hci, if_pos hci]
      · rw [if_neg hci, if_neg hci]
        by_cases hik : i = k
        · subst hik
          rw [hb, Function.update_same]
          simp only [lsProcessChunk_err, lsProcessChunk_emptyArr]
          simp only [ih]
        · rw [Function.update_noteq hik]
          simp only [ih]

/-- A worker `error` on the first chunk rejects the in-process adapter's
promise. -/
theorem generateSubtitlesOffline_rejects (outcome : ℕ → WorkerOutcome)
    (events : List (List WorkerItem)) (msg : String) (c : ChunkDef) (rest : List ChunkDef)
    (h : outcome 0 = WorkerOutcome.failure events msg) :
    (generateSubtitlesOffline outcome none (c :: rest)).1 = Except.error msg := by
  simp [generateSubtitlesOffline, generateSubtitlesOfflineGo, cancelledAt, h]

/-- When all attempts throw, the cloud adapter's `processChunk` gives up
after `MAX_RETRIES` attempts and yields the empty list — it never rejects. -/
theorem processChunkOnline_all_throws (attempts : ℕ → CloudAttempt)
    (dur off : ℚ) (h : ∀ n, attempts n = CloudAttempt.throws) :
    processChunkOnline attempts dur off = [] := by
  simp [processChunkOnline, MAX_RETRIES, processChunkOnlineGo, h 0, h 1, h 2]

/-! ### Bridges to the real-valued formulations of the source -/

/-- `rmsLt` computes exactly the source comparison
`sqrt(sumSq / length) < threshold`. -/
theorem rmsLt_iff (w : List ℚ) (t : ℚ) :
    (Real.sqrt ((sumSq w / (w.length : ℚ) : ℚ) : ℝ) < (t : ℝ)) ↔ rmsLt w t = true := by
  unfold rmsLt
  by_cases ht : (0 : ℚ) < t
  · have ht' : (0 : ℝ) < (t : ℝ) := by exact_mod_cast ht
    rw [Real.sqrt_lt' ht']
    have hcast : ((t : ℝ)) ^ 2 = (((t ^ 2 : ℚ)) : ℝ) := by push_cast; ring
    rw [hcast, Rat.cast_lt]
    simp [ht]
  · have ht2 : (t : ℝ) ≤ 0 := by exact_mod_cast le_of_not_lt ht
    constructor
    · intro h
      exact absurd (lt_of_le_of_lt (Real.sqrt_nonneg _) h) (not_lt.mpr ht2)
    · intro h
      simp [ht] at h

theorem log_max_pos {a b : ℝ} (ha : 0 < a) (hb : 0 < b) :
    Real.log (max a b) = max (Real.log a) (Real.log b) := by
  rcases le_total a b with h | h
  · rw [max_eq_right h, max_eq_right ((Real.log_le_log_iff ha hb).mpr h)]
  · rw [max_eq_left h, max_eq_left ((Real.log_le_log_iff hb ha).mpr h)]

/-- The log-space distance to the 3-second target compares exactly like the
ratio criterion used by `tieLe`: for positive `x`, `y`,
`|log x - log 3| ≤ |log y - log 3|` iff
`max (x/3) (3/x) ≤ max (y/3) (3/y)`. -/
theorem logDist_le_iff {x y : ℝ} (hx : 0 < x) (hy : 0 < y) :
    (|Real.log x - Real.log 3| ≤ |Real.log y - Real.log 3|) ↔
      max (x / 3) (3 / x) ≤ max (y / 3) (3 / y) := by
  have h3 : (0 : ℝ) < 3 := by norm_num
  have key : ∀ z : ℝ, 0 < z →
      |Real.log z - Real.log 3| = Real.log (max (z / 3) (3 / z)) := by
    intro z hz
    have h1 : Real.log z - Real.log 3 = Real.log (z / 3) :=
      (Real.log_div (ne_of_gt hz) (by norm_num)).symm
    have h2 : -Real.log (z / 3) = Real.log (3 / z) := by
      rw [← Real.log_inv, inv_div]
    rw [abs_eq_max_neg, h1, h2, log_max_pos (by positivity) (by positivity)]
  rw [key x hx, key y hy]
  exact Real.log_le_log_iff (lt_max_of_lt_left (by positivity))
    (lt_max_of_lt_left (by positivity))

/-! ### Claim theorems -/

/-- C10: `parseTimestamp` is total and never propagates a parse failure: a
string input never yields `NaN` — empty, unparsable, or malformed strings
yield `0`, and a comma decimal separator is treated like a period — and an
input value that is neither a number nor a string yields `0`. -/
theorem claim_C10 :
    (∀ s : String, (parseTimestamp (JSVal.str s)).isNaN = false) ∧
    parseTimestamp JSVal.other = JNum.fin 0 ∧
    parseTimestamp (JSVal.str "") = JNum.fin 0 ∧
    parseTimestamp (JSVal.str "abc") = JNum.fin 0 ∧
    parseTimestamp (JSVal.str "1:x") = JNum.fin 0 ∧
    parseTimestamp (JSVal.str "1,5") = parseTimestamp (JSVal.str "1.5") ∧
    parseTimestamp (JSVal.str "1,5") = JNum.fin (3/2) ∧
    parseTimestamp (JSVal.str "01:02:03,5") = JNum.fin (3723 + 1/2) := by
  refine ⟨?_, rfl, by decide, by decide, by decide, by decide, by decide, by decide⟩
  intro s
  simp only [parseTimestamp]
  split
  · rfl
  · repeat' split
    all_goals first
      | rfl
      | (rename_i hnan; simpa using hnan)

/-- C7: for the raw batch `[{start:"250", end:"500"}]` and a chunk of real
duration 3.5 s, `detectTimeScale` returns 0.01; both 0.01 and 0.001 pass
the validity window (the average 250 and maximum end 500 rule out 1.0), and
the tie is broken towards 0.01, whose scaled average duration 2.5 s is
strictly closer in log-space to the 3-second target than 0.001's 0.25 s
(lemma `logDist_le_iff` relates this to the comparator `tieLe`). -/
theorem claim_C7 :
    detectTimeScale [RawVal.mk (JSVal.str "250") (JSVal.str "500")] 3.5 = 0.01 ∧
    detectValidCandidates (JNum.fin 250) (JNum.fin 500) 3.5 = [0.01, 0.001] ∧
    |Real.log (250 * 0.01) - Real.log 3| < |Real.log (250 * 0.001) - Real.log 3| := by
  refine ⟨by decide, by decide, ?_⟩
  have h1 : (250 : ℝ) * 0.01 = 5 / 2 := by norm_num
  have h2 : (250 : ℝ) * 0.001 = 1 / 4 := by norm_num
  rw [h1, h2]
  have l1 : Real.log (5 / 2) ≤ Real.log 3 :=
    (Real.log_le_log_iff (by norm_num) (by norm_num)).mpr (by norm_num)
  have l2 : Real.log (1 / 4) ≤ Real.log 3 :=
    (Real.log_le_log_iff (by norm_num) (by norm_num)).mpr (by norm_num)
  rw [abs_of_nonpos (sub_nonpos.mpr l1), abs_of_nonpos (sub_nonpos.mpr l2), neg_sub, neg_sub]
  exact sub_lt_sub_left (Real.log_lt_log (by norm_num) (by norm_num)) _

/-- C4: with no time limit configured, the fixed-schedule chunker's windows
tile `[0, L)` exactly: a sample index is covered by some window iff it lies
in `[0, L)`, the windows are pairwise disjoint with strictly increasing
start samples, a zero-length signal yields no chunks, and a positive-length
signal no longer than the 20-second first schedule entry yields exactly the
single chunk `[0, L)`. -/
theorem claim_C4 (L sampleRate : ℕ) (hrate : 0 < sampleRate) :
    (∀ n, (∃ c ∈ getFixedChunks L sampleRate none, c.start ≤ n ∧ n < c.«end») ↔ n < L) ∧
    (getFixedChunks L sampleRate none).Pairwise (fun x y => x.«end» ≤ y.start) ∧
    (getFixedChunks L sampleRate none).Pairwise (fun x y => x.start < y.start) ∧
    (L = 0 → getFixedChunks L sampleRate none = []) ∧
    (0 < L → L ≤ 20 * sampleRate → getFixedChunks L sampleRate none = [ChunkDef.mk 0 0 L]) := by
  have hc := getFixedChunks_contig L sampleRate hrate
  refine ⟨?_, Contig.disjoint hc, Contig.startsStrictMono hc, ?_,
    getFixedChunks_small L sampleRate hrate⟩
  · intro n
    simpa using Contig.covers hc n
  · intro h
    subst h
    rfl

theorem claim_C4_witness :
    0 < 16000 ∧
    ((∀ n, (∃ c ∈ getFixedChunks 100 16000 none, c.start ≤ n ∧ n < c.«end») ↔ n < 100) ∧
    (getFixedChunks 100 16000 none).Pairwise (fun x y => x.«end» ≤ y.start) ∧
    (getFixedChunks 100 16000 none).Pairwise (fun x y => x.start < y.start) ∧
    (100 = 0 → getFixedChunks 100 16000 none = []) ∧
    (0 < 100 → 100 ≤ 20 * 16000 → getFixedChunks 100 16000 none = [ChunkDef.mk 0 0 100])) :=
  ⟨by decide, claim_C4 100 16000 (by decide)⟩

/-- C8: in the VAD chunker, for every input signal, every batch size, every
parameter setting and every analysis filter, the leftover buffer retained
across analysis-batch boundaries never exceeds `3 × batchSize × sampleRate`
samples — any longer unconsumed tail is force-flushed as its own chunk and
the retained buffer emptied before the next batch. -/
theorem claim_C8 (vocalFilter : List ℚ → List ℚ) (audioData : List ℚ)
    (sampleRate batchSizeSec : ℕ) (minSilenceSec silenceThreshold : ℚ)
    (filteringEnabled : Bool) (limitSec : Option ℚ) :
    ∀ n ∈ (getVADChunksRun vocalFilter audioData sampleRate batchSizeSec minSilenceSec
      silenceThreshold filteringEnabled limitSec).2, n ≤ 3 * (batchSizeSec * sampleRate) := by
  intro n hn
  have h := getVADChunksGo_trace_bound vocalFilter audioData sampleRate
    (batchSizeSec * sampleRate) minSilenceSec silenceThreshold filteringEnabled limitSec
    (audioData.length + 1) 0 0 [] 0 n hn
  omega

theorem claim_C8_witness :
    0 ∈ (getVADChunksRun id vadDemoAudio 100 1 0.1 1 false none).2 ∧
    0 ≤ 3 * (1 * 100) :=
  ⟨by decide, claim_C8 id vadDemoAudio 100 1 0.1 1 false none 0 (by decide)⟩

/-- C9 as stated is false at this input: the region between the consecutive
split points 30 and 45 lasts 0.15 s ≤ 0.2 s; it is not yielded, and its
samples — e.g. sample 35, which carries voiced audio — appear in no
subsequently yielded chunk: they are dropped, not merged into the next
segment. -/
theorem claim_C9_counterexample :
    scanForSplitPoints vadDemoAudio 100 0.1 1 = [30, 45] ∧
    ((45 : ℚ) - 30) / 100 ≤ 0.2 ∧
    getVADChunks id vadDemoAudio 100 1 0.1 1 false none =
      [ChunkDef.mk 0 0 30, ChunkDef.mk 1 45 60] ∧
    ∀ c ∈ getVADChunks id vadDemoAudio 100 1 0.1 1 false none,
      ¬ (c.start ≤ 35 ∧ 35 < c.«end») :=
  ⟨by decide, by decide, by decide, by decide⟩

/-- C9 amended: a region between consecutive split points whose duration is
0.2 s or shorter is not yielded as its own chunk — every chunk the
split-point loop yields lasts strictly more than 0.2 s — and the loop
advances its cursor past the skipped region, so the region's samples are
dropped rather than merged into the next segment. -/
theorem claim_C9 (sampleRate bufferGlobalStart : ℕ) (splits : List ℕ)
    (lastSplit g p : ℕ) (rest : List ℕ) :
    (∀ c ∈ (splitEmit sampleRate bufferGlobalStart splits lastSplit g).1,
      (0.2 : ℚ) < ((c.«end» : ℚ) - (c.start : ℚ)) / (sampleRate : ℚ)) ∧
    (((p : ℚ) - (lastSplit : ℚ)) / (sampleRate : ℚ) ≤ 0.2 →
      splitEmit sampleRate bufferGlobalStart (p :: rest) lastSplit g =
        splitEmit sampleRate bufferGlobalStart rest p g) :=
  ⟨splitEmit_dur sampleRate bufferGlobalStart splits lastSplit g,
    fun h => splitEmit_skip sampleRate bufferGlobalStart p rest lastSplit g (not_lt.mpr h)⟩

theorem claim_C9_witness :
    ((∀ c ∈ (splitEmit 100 0 [30, 45] 30 0).1,
      (0.2 : ℚ) < ((c.«end» : ℚ) - (c.start : ℚ)) / (100 : ℚ)) ∧
    (((45 : ℚ) - (30 : ℚ)) / (100 : ℚ) ≤ 0.2 →
      splitEmit 100 0 (45 :: []) 30 0 = splitEmit 100 0 [] 45 0)) :=
  claim_C9 100 0 [30, 45] 30 0 45 []

/-- C1 as stated is false at this input: cancellation strikes while chunk
0's backend call is in flight; the call completes and the segments of the
cancelled job's chunk are still merged and published — the event trace
contains a publication after the cancellation instant, because the liveness
check runs before each dispatch, not before each publish. -/
theorem claim_C1_counterexample :
    (generateSubtitlesLocalServer 16000 16000
      (fun _ => LSResponse.segArr [LSRawSeg.mk (JSVal.num 0) (JSVal.num 1) (some "hi")])
      none (some 0) [ChunkDef.mk 0 0 16000]).2 =
      [PEvent.cancelEvt, PEvent.publish [Seg.mk 0 0 1 "hi"]] ∧
    pubsAfterCancel (generateSubtitlesLocalServer 16000 16000
      (fun _ => LSResponse.segArr [LSRawSeg.mk (JSVal.num 0) (JSVal.num 1) (some "hi")])
      none (some 0) [ChunkDef.mk 0 0 16000]).2 = 1 :=
  ⟨by decide, by decide⟩

/-- C1 amended: the liveness check precedes every chunk dispatch, not every
publish.  In the sequential local-server loop, at most one publication can
occur after the cancellation instant — the single chunk whose backend call
was already in flight — and the responses of chunks that would have been
dispatched after cancellation can never influence the result or the event
trace. -/
theorem claim_C1 (audioLen sampleRate : ℕ) (backend backend' : ℕ → LSResponse)
    (timeScaleCfg : Option ℚ) (cancelDuring : Option ℕ) (chunks : List ChunkDef) (k : ℕ)
    (hsame : ∀ j, j ≤ k → backend j = backend' j) :
    pubsAfterCancel (generateSubtitlesLocalServer audioLen sampleRate backend timeScaleCfg
      cancelDuring chunks).2 ≤ 1 ∧
    generateSubtitlesLocalServer audioLen sampleRate backend timeScaleCfg (some k) chunks =
      generateSubtitlesLocalServer audioLen sampleRate backend' timeScaleCfg (some k) chunks :=
  ⟨lsGo_pubsAfterCancel audioLen sampleRate backend timeScaleCfg cancelDuring chunks 0 [],
    lsGo_backend_irrelevant audioLen sampleRate timeScaleCfg k backend backend' hsame chunks 0 []⟩

theorem claim_C1_witness :
    (pubsAfterCancel (generateSubtitlesLocalServer 16000 16000
      (fun _ => LSResponse.segArr [LSRawSeg.mk (JSVal.num 0) (JSVal.num 1) (some "hi")])
      none (some 0) [ChunkDef.mk 0 0 16000]).2 ≤ 1 ∧
    generateSubtitlesLocalServer 16000 16000
      (fun _ => LSResponse.segArr [LSRawSeg.mk (JSVal.num 0) (JSVal.num 1) (some "hi")])
      none (some 0) [ChunkDef.mk 0 0 16000] =
      generateSubtitlesLocalServer 16000 16000
        (fun _ => LSResponse.segArr [LSRawSeg.mk (JSVal.num 0) (JSVal.num 1) (some "hi")])
        none (some 0) [ChunkDef.mk 0 0 16000]) :=
  claim_C1 16000 16000
    (fun _ => LSResponse.segArr [LSRawSeg.mk (JSVal.num 0) (JSVal.num 1) (some "hi")])
    (fun _ => LSResponse.segArr [LSRawSeg.mk (JSVal.num 0) (JSVal.num 1) (some "hi")])
    none (some 0) [ChunkDef.mk 0 0 16000] 0 (fun _ _ => rfl)

/-- C2 as stated is false: a worker inference error on a chunk rejects the
in-process adapter's promise (`chunkReject` → `catch` → `reject`) instead of
skipping the chunk. -/
theorem claim_C2_counterexample :
    (generateSubtitlesOffline (fun _ => WorkerOutcome.failure [] "boom") none
      [ChunkDef.mk 0 0 16000]).1 = Except.error "boom" := by
  decide

/-- C2 amended: for the local-server adapter a failed chunk is swallowed and
behaves exactly like a chunk with no segments while the loop continues; the
cloud adapter's `processChunk` yields `[]` after its attempts are exhausted
and never rejects; audio-acquisition failure rejects the orchestrator before
any chunking, and a successfully acquired signal passes to the adapter
unchanged; but the in-process worker adapter rejects its promise when a
chunk's inference errors. -/
theorem claim_C2 (audioLen sampleRate : ℕ) (backend : ℕ → LSResponse) (cfg : Option ℚ)
    (cd : Option ℕ) (chunks : List ChunkDef) (k : ℕ) (hk : backend k = LSResponse.err)
    (attempts : ℕ → CloudAttempt) (dur off : ℚ) (hth : ∀ n, attempts n = CloudAttempt.throws)
    (e : String) (adapter : List ℚ → Except String (List Seg)) (audioData : List ℚ)
    (f : List ℚ → List Seg)
    (outcome : ℕ → WorkerOutcome) (events : List (List WorkerItem)) (msg : String)
    (c : ChunkDef) (rest : List ChunkDef) (hfail : outcome 0 = WorkerOutcome.failure events msg) :
    generateSubtitlesLocalServer audioLen sampleRate backend cfg cd chunks =
      generateSubtitlesLocalServer audioLen sampleRate
        (Function.update backend k (LSResponse.segArr [])) cfg cd chunks ∧
    processChunkOnline attempts dur off = [] ∧
    generateSubtitlesOrch (Except.error e) adapter = Except.error e ∧
    generateSubtitlesOrch (Except.ok audioData) (fun a => Except.ok (f a)) =
      Except.ok (f audioData) ∧
    (generateSubtitlesOffline outcome none (c :: rest)).1 = Except.error msg :=
  ⟨lsGo_err_eq_empty audioLen sampleRate cfg cd k backend hk chunks 0 [],
    processChunkOnline_all_throws attempts dur off hth, rfl, rfl,
    generateSubtitlesOffline_rejects outcome events msg c rest hfail⟩

theorem claim_C2_witness :
    (generateSubtitlesLocalServer 16000 16000 (fun _ => LSResponse.err) none none
        [ChunkDef.mk 0 0 16000] =
      generateSubtitlesLocalServer 16000 16000
        (Function.update (fun _ => LSResponse.err) 0 (LSResponse.segArr [])) none none
        [ChunkDef.mk 0 0 16000] ∧
    processChunkOnline (fun _ => CloudAttempt.throws) 1 0 = [] ∧
    generateSubtitlesOrch (Except.error "decode failed")
      (fun _ => Except.ok ([] : List Seg)) = Except.error "decode failed" ∧
    generateSubtitlesOrch (Except.ok ([] : List ℚ)) (fun _a => Except.ok (([] : List Seg))) =
      Except.ok ([] : List Seg) ∧
    (generateSubtitlesOffline (fun _ => WorkerOutcome.failure [] "boom") none
      [ChunkDef.mk 0 0 16000]).1 = Except.error "boom") :=
  claim_C2 16000 16000 (fun _ => LSResponse.err) none none [ChunkDef.mk 0 0 16000] 0 rfl
    (fun _ => CloudAttempt.throws) 1 0 (fun _ => rfl) "decode failed"
    (fun _ => Except.ok ([] : List Seg)) ([] : List ℚ) (fun _ => ([] : List Seg))
    (fun _ => WorkerOutcome.failure [] "boom") [] "boom" (ChunkDef.mk 0 0 16000) [] rfl

/-- C3 as stated is false for the cloud adapter: it has no `end > start`
guard, so a degenerate raw segment `{start: 0, end: 0, text: "x"}` survives
`processChunk` and is published by `updateProgress` with `end = start`. -/
theorem claim_C3_counterexample :
    onlineProcessedSegments [CloudRawSeg.mk 0 0 "x"] 3 0 = [Seg.mk 0 0 0 "x"] ∧
    onlineUpdateProgress
      (fun i => if i = 0 then some (onlineProcessedSegments [CloudRawSeg.mk 0 0 "x"] 3 0)
        else none) [0] = some [Seg.mk 0 0 0 "x"] ∧
    ¬ allPos [Seg.mk 0 0 0 "x"] := by
  refine ⟨by decide, by decide, ?_⟩
  intro h
  exact absurd (h (Seg.mk 0 0 0 "x") (by decide)) (lt_irrefl 0)

/-- C3 amended: every list passed to `onProgress` or returned on completion
by the in-process and local-server adapters satisfies the full invariant —
`end > start` for every element, sorted ascending by `start`, ids dense —
while the cloud adapter's published and final lists are sorted with dense
ids but carry no `end > start` guard. -/
theorem claim_C3 (audioLen sampleRate : ℕ) (backend : ℕ → LSResponse) (cfg : Option ℚ)
    (cd : Option ℕ) (chunks : List ChunkDef) (outcome : ℕ → WorkerOutcome)
    (resultsMap : ℕ → Option (List Seg)) (indices : List ℕ) (p : List Seg) :
    (∀ q ∈ publishes
        (generateSubtitlesLocalServer audioLen sampleRate backend cfg cd chunks).2, segInv q) ∧
    segInv (generateSubtitlesLocalServer audioLen sampleRate backend cfg cd chunks).1 ∧
    (∀ q ∈ (generateSubtitlesOffline outcome cd chunks).2, segInv q) ∧
    (∀ r, (generateSubtitlesOffline outcome cd chunks).1 = Except.ok r → segInv r) ∧
    (onlineUpdateProgress resultsMap indices = some p → sortedByStart p ∧ denseIds p) ∧
    sortedByStart (onlineFinal resultsMap indices) ∧
    denseIds (onlineFinal resultsMap indices) := by
  obtain ⟨h1, h2⟩ := lsGo_invariant audioLen sampleRate backend cfg cd chunks 0 []
    segInv_nil.1 segInv_nil.2.1
  obtain ⟨h3, h4⟩ := offGo_invariant outcome cd chunks 0 [] segInv_nil
  exact ⟨h1, h2, h3, h4, onlineUpdateProgress_invariant resultsMap indices p,
    (onlineFinal_invariant resultsMap indices).1, (onlineFinal_invariant resultsMap indices).2⟩

theorem claim_C3_witness :
    ((∀ q ∈ publishes
        (generateSubtitlesLocalServer 16000 16000
          (fun _ => LSResponse.segArr [LSRawSeg.mk (JSVal.num 0) (JSVal.num 1) (some "hi")])
          none none [ChunkDef.mk 0 0 16000]).2, segInv q) ∧
    segInv (generateSubtitlesLocalServer 16000 16000
      (fun _ => LSResponse.segArr [LSRawSeg.mk (JSVal.num 0) (JSVal.num 1) (some "hi")])
      none none [ChunkDef.mk 0 0 16000]).1 ∧
    (∀ q ∈ (generateSubtitlesOffline
        (fun _ => WorkerOutcome.success [[WorkerItem.mk 0 1 "hi"]]) none
        [ChunkDef.mk 0 0 16000]).2, segInv q) ∧
    (∀ r, (generateSubtitlesOffline
        (fun _ => WorkerOutcome.success [[WorkerItem.mk 0 1 "hi"]]) none
        [ChunkDef.mk 0 0 16000]).1 = Except.ok r → segInv r) ∧
    (onlineUpdateProgress (fun _ => none) [] = some [] → sortedByStart [] ∧ denseIds []) ∧
    sortedByStart (onlineFinal (fun _ => none) []) ∧
    denseIds (onlineFinal (fun _ => none) [])) :=
  claim_C3 16000 16000
    (fun _ => LSResponse.segArr [LSRawSeg.mk (JSVal.num 0) (JSVal.num 1) (some "hi")])
    none none [ChunkDef.mk 0 0 16000]
    (fun _ => WorkerOutcome.success [[WorkerItem.mk 0 1 "hi"]])
    (fun _ => none) [] []

/-- C5 as stated is false: re-delivering an already-accumulated two-segment
batch duplicates both entries, because each incoming segment is compared
only against the current last element. -/
theorem claim_C5_counterexample :
    lsProcessChunk
        (LSResponse.segArr [LSRawSeg.mk (JSVal.num 0) (JSVal.num 2) (some "hello"),
          LSRawSeg.mk (JSVal.num 2) (JSVal.num 4) (some "world")]) none 0 4
        ((lsProcessChunk
          (LSResponse.segArr [LSRawSeg.mk (JSVal.num 0) (JSVal.num 2) (some "hello"),
            LSRawSeg.mk (JSVal.num 2) (JSVal.num 4) (some "world")]) none 0 4 []).getD []) ≠
      some ((lsProcessChunk
        (LSResponse.segArr [LSRawSeg.mk (JSVal.num 0) (JSVal.num 2) (some "hello"),
          LSRawSeg.mk (JSVal.num 2) (JSVal.num 4) (some "world")]) none 0 4 []).getD []) := by
  decide

/-- C5 amended: re-delivery of a single-segment batch whose text equals the
current last accumulated segment's text leaves the list unchanged (the
text-identity rule), in both the local-server and the in-process dedup
loops; batches of two or more distinct-text segments can be duplicated on
re-delivery, as only the last element is compared. -/
theorem claim_C5 (acc : List Seg) (last s : Seg) (hlast : acc.getLast? = some last)
    (htext : s.text = last.text) :
    [s].foldl lsStep acc = acc ∧ [s].foldl offStep acc = acc := by
  constructor
  · show lsStep acc s = acc
    unfold lsStep
    rw [hlast]
    simp [htext]
  · show offStep acc s = acc
    unfold offStep
    rw [hlast]
    simp [htext]

theorem claim_C5_witness :
    ([Seg.mk 0 0 2 "a"].getLast? = some (Seg.mk 0 0 2 "a") ∧
      (Seg.mk 0 1 3 "a").text = (Seg.mk 0 0 2 "a").text) ∧
    ([Seg.mk 0 1 3 "a"].foldl lsStep [Seg.mk 0 0 2 "a"] = [Seg.mk 0 0 2 "a"] ∧
      [Seg.mk 0 1 3 "a"].foldl offStep [Seg.mk 0 0 2 "a"] = [Seg.mk 0 0 2 "a"]) :=
  ⟨⟨by decide, by decide⟩,
    claim_C5 [Seg.mk 0 0 2 "a"] (Seg.mk 0 0 2 "a") (Seg.mk 0 1 3 "a") (by decide) (by decide)⟩

/-- C6 as stated is false for the local-server backend: with accumulated
text "hello world." and incoming "world", the claim's normalization
(lowercase + strip punctuation) makes the last text end with the incoming
text, whose length 5 exceeds the threshold, so the claim predicts a drop;
but the local-server rule does not strip punctuation, the suffix test fails
on the trailing period, and the segment is appended. -/
theorem claim_C6_counterexample :
    jsEndsWith (jsTrim (stripPunct (jsToLower "hello world.")))
      (jsTrim (stripPunct (jsToLower "world"))) = true ∧
    (jsTrim (stripPunct (jsToLower "world"))).length > 3 ∧
    lsStep [Seg.mk 0 0 2 "hello world."] (Seg.mk 0 (19/10) (21/10) "world") =
      [Seg.mk 0 0 2 "hello world.", Seg.mk 0 (19/10) (21/10) "world"] :=
  ⟨by decide, by decide, by decide⟩

/-- C6 amended: the in-process backend normalizes by lowercasing, stripping
`.,?!` and trimming, with threshold 2; the local-server backend normalizes
by lowercasing and trimming only, with threshold 3.  Whenever the last
accumulated segment's normalized text ends with the incoming segment's
normalized text and the latter exceeds the backend's threshold, the
incoming segment is dropped and the accumulated list is unchanged; in
particular `{start: 1.9, end: 2.1, text: "world"}` is dropped after
`{start: 0, end: 2, text: "hello world"}` by both backends. -/
theorem claim_C6 (acc accL : List Seg) (last lastL seg segL : Seg)
    (hOff : acc.getLast? = some last)
    (hsuf : jsEndsWith (jsTrim (stripPunct (jsToLower last.text)))
      (jsTrim (stripPunct (jsToLower seg.text))) = true)
    (hlen : (jsTrim (stripPunct (jsToLower seg.text))).length > 2)
    (hLs : accL.getLast? = some lastL)
    (hsufL : jsEndsWith (jsTrim (jsToLower lastL.text)) (jsTrim (jsToLower segL.text)) = true)
    (hlenL : (jsTrim (jsToLower segL.text)).length > 3) :
    offStep acc seg = acc ∧ lsStep accL segL = accL ∧
    offStep [Seg.mk 0 0 2 "hello world"] (Seg.mk 0 (19/10) (21/10) "world") =
      [Seg.mk 0 0 2 "hello world"] ∧
    lsStep [Seg.mk 0 0 2 "hello world"] (Seg.mk 0 (19/10) (21/10) "world") =
      [Seg.mk 0 0 2 "hello world"] := by
  refine ⟨?_, ?_, by decide, by decide⟩
  · unfold offStep
    rw [hOff]
    by_cases heq : seg.text = last.text
    · simp [heq]
    · simp [heq, hsuf, hlen]
  · unfold lsStep
    rw [hLs]
    by_cases heq : segL.text = lastL.text
    · simp [heq]
    · simp [heq, hsufL, hlenL]

theorem claim_C6_witness :
    (([Seg.mk 0 0 2 "hello world"].getLast? = some (Seg.mk 0 0 2 "hello world")) ∧
      jsEndsWith (jsTrim (stripPunct (jsToLower "hello world")))
        (jsTrim (stripPunct (jsToLower "world"))) = true ∧
      (jsTrim (stripPunct (jsToLower "world"))).length > 2 ∧
      jsEndsWith (jsTrim (jsToLower "hello world")) (jsTrim (jsToLower "world")) = true ∧
      (jsTrim (jsToLower "world")).length > 3) ∧
    (offStep [Seg.mk 0 0 2 "hello world"] (Seg.mk 0 (19/10) (21/10) "world") =
        [Seg.mk 0 0 2 "hello world"] ∧
      lsStep [Seg.mk 0 0 2 "hello world"] (Seg.mk 0 (19/10) (21/10) "world") =
        [Seg.mk 0 0 2 "hello world"] ∧
      offStep [Seg.mk 0 0 2 "hello world"] (Seg.mk 0 (19/10) (21/10) "world") =
        [Seg.mk 0 0 2 "hello world"] ∧
      lsStep [Seg.mk 0 0 2 "hello world"] (Seg.mk 0 (19/10) (21/10) "world") =
        [Seg.mk 0 0 2 "hello world"]) :=
  ⟨⟨by decide, by decide, by decide, by decide, by decide⟩,
    claim_C6 [Seg.mk 0 0 2 "hello world"] [Seg.mk 0 0 2 "hello world"]
      (Seg.mk 0 0 2 "hello world") (Seg.mk 0 0 2 "hello world")
      (Seg.mk 0 (19/10) (21/10) "world") (Seg.mk 0 (19/10) (21/10) "world")
      (by decide) (by decide) (by decide) (by decide) (by decide) (by decide)⟩
